import Mathlib

set_option maxRecDepth 8000

/-! Verification of the schema consolidation pipeline: the foreign key
dependency resolver (resolve_dependencies.py) and the group assignor and
seed separator (split_by_schema.py).  Python strings are modelled by
`String`, python dicts by association lists or update functions, the
per-table input directory by an association list from table name to file
text, and the fatal `SystemExit` raised by the assignor by
`Except String`. -/

/-! ## String helpers (the python built-ins the scripts use) -/

/-- ASCII whitespace, the characters python str.strip removes from SQL text. -/
def pyIsSpace (c : Char) : Bool :=
  c = ' ' || c = '\t' || c = '\n' || c = '\r' || c = '\x0b' || c = '\x0c'

/-- python str.strip (ASCII whitespace). -/
def pyStrip (s : String) : String :=
  ⟨((s.data.dropWhile pyIsSpace).reverse.dropWhile pyIsSpace).reverse⟩

/-- python str.lstrip (ASCII whitespace). -/
def pyLstrip (s : String) : String := ⟨s.data.dropWhile pyIsSpace⟩

/-- python str.upper on the ASCII letters appearing in SQL keywords. -/
def pyUpper (s : String) : String := ⟨s.data.map Char.toUpper⟩

/-- startswith on character lists. -/
def leadsWith : List Char → List Char → Bool
  | [], _ => true
  | _ :: _, [] => false
  | p :: ps, c :: cs => p = c && leadsWith ps cs

/-- python str.startswith. -/
def strLeads (pre s : String) : Bool := leadsWith pre.data s.data

/-- substring search on character lists. -/
def listHasSub : List Char → List Char → Bool
  | [], pat => leadsWith pat []
  | c :: t, pat => leadsWith pat (c :: t) || listHasSub t pat

/-- python substring containment, the `in` operator on str. -/
def strHasSub (s pat : String) : Bool := listHasSub s.data pat.data

/-- code point lexicographic comparison, python string ordering. -/
def charsLe : List Char → List Char → Bool
  | [], _ => true
  | _ :: _, [] => false
  | a :: as, b :: bs =>
    if a.toNat < b.toNat then true
    else if b.toNat < a.toNat then false
    else charsLe as bs

/-- python string less-or-equal. -/
def strLe (a b : String) : Bool := charsLe a.data b.data

/-- insertion step of the sort modelling python sorted. -/
def insertSorted (x : String) : List String → List String
  | [] => [x]
  | y :: ys => if strLe x y then x :: y :: ys else y :: insertSorted x ys

/-- python sorted on a list of strings (code point ascending). -/
def sortStrings : List String → List String
  | [] => []
  | x :: xs => insertSorted x (sortStrings xs)

/-- python "sep".join(parts). -/
def joinSep (sep : String) : List String → String
  | [] => ""
  | [x] => x
  | x :: y :: ys => x ++ sep ++ joinSep sep (y :: ys)

/-! ## Topological resolver (resolve_dependencies.py, main) -/

/-- State of the depth first traversal in resolve_dependencies.main:
the sets temp and visited, the list resolved and the list cycle_report. -/
structure RState where
  temp : List String
  visited : List String
  resolved : List String
  cycles : List (List String)
deriving Repr, DecidableEq

/-- graph.get(node, []) on the association list representing the graph dict. -/
def depsOf (g : List (String × List String)) (node : String) : List String :=
  match g.find? (fun p => p.1 = node) with
  | some p => p.2
  | none => []

/-- sorted(graph.get(node, [])): the stored references form a set, so the
loop enumerates their distinct members in code point order. -/
def sortedDeps (g : List (String × List String)) (node : String) : List String :=
  sortStrings (depsOf g node).dedup

/-- sorted(graph): the key enumeration of the outer loop. -/
def sortedKeys (g : List (String × List String)) : List String :=
  sortStrings (g.map Prod.fst)

/-- Every name occurring in the graph.  The python recursion only ever
descends through such names, which bounds its depth. -/
def graphNames (g : List (String × List String)) : List String :=
  ((g.map Prod.fst) ++ (g.map Prod.snd).flatten).dedup

/-- The recursive closure visit(node, stack).  The fuel argument bounds the
recursion depth; the resolver runs it with fuel exceeding the number of
distinct names, which is never exhausted. -/
def visit (g : List (String × List String)) :
    Nat → String → List String → RState → RState
  | 0, _, _, s => s
  | fuel + 1, node, stack, s =>
    if node ∈ s.visited then s
    else if node ∈ s.temp then
      { s with cycles := s.cycles ++ [stack.drop (stack.indexOf node) ++ [node]] }
    else
      let s1 : RState := { s with temp := node :: s.temp }
      let s2 := (sortedDeps g node).foldl
        (fun st dep => visit g fuel dep (stack ++ [dep]) st) s1
      { temp := s2.temp.erase node, visited := node :: s2.visited,
        resolved := s2.resolved ++ [node], cycles := s2.cycles }

/-- Fuel sufficient for any traversal of g. -/
def resolveFuel (g : List (String × List String)) : Nat := (graphNames g).length + 1

/-- for table in sorted(graph): visit(table, [table]). -/
def resolveLoop (g : List (String × List String)) (fuel : Nat) :
    List String → RState → RState
  | [], s => s
  | t :: ts, s => resolveLoop g fuel ts (visit g fuel t [t] s)

/-- Empty traversal state. -/
def initRState : RState := ⟨[], [], [], []⟩

/-- The whole resolver run on a dependency graph. -/
def resolve (g : List (String × List String)) : RState :=
  resolveLoop g (resolveFuel g) (sortedKeys g) initRState

/-- A table becomes a graph node iff its extracted text contains the
substring CREATE TABLE (the continue test in resolve_dependencies.main). -/
def isGraphNode (text : String) : Bool := strHasSub text "CREATE TABLE"

/-! ## Group assignor and seed separator (split_by_schema.py) -/

/-- The membership pools of the GROUPS dict, in its insertion order. -/
def GROUPS : List (String × List String) :=
  [("core", ["roles", "permissions", "role_permissions", "positions",
      "role_positions", "users", "password_history", "password_reset_otps",
      "refresh_tokens", "mfa_role_settings", "mfa_verification_attempts"]),
   ("project", ["projects", "project_users", "project_milestones",
      "project_files", "project_client_call_notes", "project_daily_status",
      "project_comments", "tasks", "task_comments", "task_history", "bugs",
      "bug_comments", "attachments", "timesheets"]),
   ("support", ["employees", "employee_documents", "attendance", "leaves",
      "reimbursements", "holidays", "asset_categories", "assets",
      "asset_laptop_details", "asset_mobile_details",
      "asset_accessory_details", "asset_assignments", "asset_tickets",
      "asset_ticket_comments", "asset_ticket_attachments", "asset_audit_logs",
      "asset_maintenance", "asset_approvals", "inventory_items",
      "inventory_transactions", "inventory_attachments"]),
   ("misc", ["notifications", "audit_logs", "settings", "fcm_tokens",
      "calendar_reminders"])]

/-- The fixed traversal order of the output groups. -/
def GROUP_ORDER : List String := ["core", "project", "support", "misc"]

/-- Tables whose INSERT statements may enter the seed file. -/
def ALLOWED_SEED_TABLES : List String :=
  ["roles", "permissions", "role_permissions", "positions", "role_positions",
   "settings"]

/-- Per-group line budget. -/
def LINE_LIMIT : Nat := 600

/-- The keys of the OUTPUT_FILES dict, in its insertion order. -/
def OUTPUT_KEYS : List String := ["core", "project", "support", "misc", "seed"]

/-- Inner loop of split_statements: the statement buffer is cut after every
semicolon, stripped, and kept when non-empty; a stripped non-empty trailing
buffer is kept as well. -/
def splitStatementsAux : List Char → List Char → List String
  | [], buffer =>
    let trailing := pyStrip ⟨buffer.reverse⟩
    if trailing = "" then [] else [trailing]
  | c :: cs, buffer =>
    if c = ';' then
      let stmt := pyStrip ⟨(c :: buffer).reverse⟩
      (if stmt = "" then [] else [stmt]) ++ splitStatementsAux cs []
    else splitStatementsAux cs (c :: buffer)

/-- split_statements(text). -/
def split_statements (text : String) : List String :=
  splitStatementsAux text.data []

/-- is_ddl(statement). -/
def is_ddl (statement : String) : Bool :=
  strLeads "CREATE TABLE" (pyUpper (pyLstrip statement))

/-- is_insert(statement). -/
def is_insert (statement : String) : Bool :=
  strLeads "INSERT INTO" (pyUpper (pyLstrip statement))

/-- Mutable state of split_by_schema.main: the two per-group dicts, the
seeds list, and the content of the append-only log file. -/
structure AState where
  groupContents : String → String
  groupLines : String → Nat
  seeds : List String
  log : List String

/-- State at the top of main (and just after prepare_group_files truncated
the log file). -/
def initAState : AState :=
  { groupContents := fun _ => "", groupLines := fun _ => 0, seeds := [], log := [] }

/-- content.count(newline) + 1, the line count used for budgeting. -/
def lineCount (content : String) : Nat := content.data.count '\n' + 1

/-- write_group_content: commit the block to the group unless this would
push the group over LINE_LIMIT; returns whether it committed. -/
def write_group_content (group : String) (content : String) (st : AState) :
    Bool × AState :=
  let lines := lineCount content
  if st.groupLines group + lines > LINE_LIMIT then (false, st)
  else
    (true,
     { st with
       groupContents := fun g =>
         if g = group then
           (if st.groupContents group = "" then content
            else st.groupContents group ++ "\n\n" ++ content)
         else st.groupContents g,
       groupLines := fun g =>
         if g = group then st.groupLines g + lines else st.groupLines g })

/-- assign_group: first pool of GROUPS containing the table, else misc. -/
def assign_group (table : String) : String :=
  match GROUPS.find? (fun gp => table ∈ gp.2) with
  | some gp => gp.1
  | none => "misc"

/-- The dead helper log_reassignment of split_by_schema.py: the line format
it would write.  The running code never calls it. -/
def log_reassignment (table from_group to_group : String) : String :=
  "Table " ++ table ++ " moved from " ++ from_group ++ " to " ++ to_group

/-- The line the while loop of main actually appends to the log on a
cascade. -/
def exceededLine (current_group table next_group : String) : String :=
  "Exceeded " ++ toString LINE_LIMIT ++ " lines in " ++ current_group ++
    ", moving " ++ table ++ " to " ++ next_group

/-- The message of the SystemExit raised by main. -/
def limitMessage (table : String) : String :=
  "Line limit reached for all groups while placing " ++ table

/-- The while loop of main over the remaining suffix of GROUP_ORDER:
try the current group, else log the cascade and move to the next; raise
on running past the last group. -/
def placeFrom (table ddl_block : String) :
    List String → AState → Except String AState
  | [], st => .ok st
  | group :: rest, st =>
    let r := write_group_content group ddl_block st
    if r.1 then .ok r.2
    else
      match rest with
      | [] => .error (limitMessage table)
      | next :: _ =>
        placeFrom table ddl_block rest
          { st with log := st.log ++ [exceededLine group table next] }

/-- EXTRA_DIR lookup: path existence and file content for a table. -/
def lookupFile (files : List (String × String)) (table : String) :
    Option String :=
  (files.find? (fun p => p.1 = table)).map Prod.snd

/-- One iteration of the for loop of main over the resolved order. -/
def processTable (files : List (String × String)) (st : AState)
    (table : String) : Except String AState :=
  match lookupFile files table with
  | none => .ok st
  | some text =>
    let statements := split_statements text
    let ddl_statements := statements.filter is_ddl
    let insert_statements := statements.filter is_insert
    if ddl_statements = [] then .ok st
    else
      let ddl_block := joinSep "\n\n" ddl_statements
      let target_group := assign_group table
      match placeFrom table ddl_block
          (GROUP_ORDER.drop (GROUP_ORDER.indexOf target_group)) st with
      | .error e => .error e
      | .ok st2 =>
        .ok { st2 with
              seeds := insert_statements.foldl
                (fun seeds stmt =>
                  if table ∈ ALLOWED_SEED_TABLES then seeds ++ [stmt]
                  else seeds) st2.seeds }

/-- The for loop of main over the whole resolved order. -/
def runTables (files : List (String × String)) :
    List String → AState → Except String AState
  | [], st => .ok st
  | t :: ts, st =>
    match processTable files st t with
    | .error e => .error e
    | .ok st2 => runTables files ts st2

/-- main() up to, and including, its per-table loop. -/
def mainRun (order : List String) (files : List (String × String)) :
    Except String AState :=
  runTables files order initAState

/-- The text main writes for one OUTPUT_FILES entry. -/
def renderOutput (st : AState) (key : String) : String :=
  if key = "seed" then "-- Seed file (DDL stripped)\n" ++ joinSep "\n\n" st.seeds
  else if st.groupContents key = "" then "-- " ++ key ++ " schema pending\n"
  else st.groupContents key

/-- The five files main writes at its end, in OUTPUT_FILES order. -/
def renderAll (st : AState) : List (String × String) :=
  OUTPUT_KEYS.map (fun key => (key, renderOutput st key))

/-- One whole script invocation.  The duplicated dunder-main blocks first
run prepare_group_files (which truncates the log file) and main, then run
main a second time; the log file receives the lines of both runs, while
the output files keep what the second run overwrote them with. -/
def runScript (order : List String) (files : List (String × String)) :
    Except String (List (String × String) × List String) :=
  match mainRun order files with
  | .error e => .error e
  | .ok st1 =>
    match mainRun order files with
    | .error e => .error e
    | .ok st2 => .ok (renderAll st2, st1.log ++ st2.log)

/-- Log lines of an assignor result, empty when it aborted. -/
def logOf (r : Except String AState) : List String :=
  match r with
  | .ok st => st.log
  | .error _ => []

/-- Line counter of a group after an assignor result. -/
def linesOf (r : Except String AState) (g : String) : Nat :=
  match r with
  | .ok st => st.groupLines g
  | .error _ => 0

/-- Seeds list of an assignor result. -/
def seedsOf (r : Except String AState) : List String :=
  match r with
  | .ok st => st.seeds
  | .error _ => []

/-! ## Sorting facts -/

lemma insertSorted_perm (x : String) (l : List String) :
    List.Perm (insertSorted x l) (x :: l) := by
  induction l with
  | nil => exact List.Perm.refl _
  | cons y ys ih =>
    by_cases h : strLe x y = true
    · simp [insertSorted, h]
    · simp only [insertSorted, h, if_false, Bool.false_eq_true]
      exact ((ih.cons y).trans (List.Perm.swap x y ys))

lemma sortStrings_perm (l : List String) : List.Perm (sortStrings l) l := by
  induction l with
  | nil => exact List.Perm.refl _
  | cons x xs ih => exact (insertSorted_perm x (sortStrings xs)).trans (ih.cons x)

lemma mem_sortStrings {x : String} {l : List String} :
    x ∈ sortStrings l ↔ x ∈ l := (sortStrings_perm l).mem_iff

lemma mem_sortedDeps {g : List (String × List String)} {n d : String} :
    d ∈ sortedDeps g n ↔ d ∈ depsOf g n := by
  unfold sortedDeps
  rw [mem_sortStrings, List.mem_dedup]

lemma sortedDeps_subset_graphNames {g : List (String × List String)}
    {n d : String} (h : d ∈ sortedDeps g n) : d ∈ graphNames g := by
  rw [mem_sortedDeps] at h
  unfold depsOf at h
  unfold graphNames
  rw [List.mem_dedup, List.mem_append]
  cases hf : g.find? (fun p => p.1 = n) with
  | none => rw [hf] at h; cases h
  | some p =>
    rw [hf] at h
    refine Or.inr ?_
    rw [List.mem_flatten]
    exact ⟨p.2, List.mem_map_of_mem Prod.snd (List.mem_of_find?_eq_some hf), h⟩

lemma sortedKeys_subset_graphNames {g : List (String × List String)}
    {t : String} (h : t ∈ sortedKeys g) : t ∈ graphNames g := by
  rw [sortedKeys, mem_sortStrings] at h
  unfold graphNames
  rw [List.mem_dedup, List.mem_append]
  exact Or.inl h

/-! ## Resolver invariants -/

/-- The state after a traversal step extends the state before it: the
in-progress set is restored, the visited set grows, resolved and the cycle
report only grow by appending at the back. -/
def ExtendsR (s s2 : RState) : Prop :=
  s2.temp = s.temp ∧ (∀ x ∈ s.visited, x ∈ s2.visited) ∧
    (∃ r, s2.resolved = s.resolved ++ r) ∧ (∃ c, s2.cycles = s.cycles ++ c)

lemma extendsR_refl (s : RState) : ExtendsR s s :=
  ⟨rfl, fun _ h => h, ⟨[], by simp⟩, ⟨[], by simp⟩⟩

lemma extendsR_trans {a b c : RState} (h1 : ExtendsR a b) (h2 : ExtendsR b c) :
    ExtendsR a c := by
  obtain ⟨t1, v1, ⟨r1, hr1⟩, ⟨c1, hc1⟩⟩ := h1
  obtain ⟨t2, v2, ⟨r2, hr2⟩, ⟨c2, hc2⟩⟩ := h2
  exact ⟨t2.trans t1, fun x hx => v2 x (v1 x hx),
    ⟨r1 ++ r2, by rw [hr2, hr1, List.append_assoc]⟩,
    ⟨c1 ++ c2, by rw [hc2, hc1, List.append_assoc]⟩⟩

/-- Topological soundness of the finished part of a traversal state: a
finished table has every enumerated dependency placed strictly earlier, or
shares a recorded cycle with it. -/
def OrderOK (g : List (String × List String)) (s : RState) : Prop :=
  ∀ T ∈ s.resolved, ∀ D ∈ sortedDeps g T,
    (D ∈ s.resolved ∧ s.resolved.indexOf D < s.resolved.indexOf T) ∨
    (∃ c ∈ s.cycles, T ∈ c ∧ D ∈ c)

/-- Traversal invariant: visited and resolved hold the same tables,
resolved has no duplicates, no in-progress table is finished, and the
finished part is topologically sound. -/
def InvR (g : List (String × List String)) (s : RState) : Prop :=
  (∀ n, n ∈ s.visited ↔ n ∈ s.resolved) ∧ s.resolved.Nodup ∧
    (∀ n ∈ s.temp, n ∉ s.visited) ∧ OrderOK g s

lemma invR_init (g : List (String × List String)) : InvR g initRState := by
  refine ⟨fun n => ?_, List.nodup_nil, fun n h => (List.not_mem_nil n h).elim,
    fun T hT => (List.not_mem_nil T hT).elim⟩
  simp [initRState]

/-- Sugar for the dependency fold inside visit. -/
def visitFold (g : List (String × List String)) (fuel : Nat)
    (stack : List String) (ds : List String) (st : RState) : RState :=
  ds.foldl (fun st dep => visit g fuel dep (stack ++ [dep]) st) st

lemma visitFold_nil (g fuel stack st) : visitFold g fuel stack [] st = st := rfl

lemma visitFold_cons (g fuel stack d ds st) :
    visitFold g fuel stack (d :: ds) st =
    visitFold g fuel stack ds (visit g fuel d (stack ++ [d]) st) := rfl

lemma visit_visited {g fuel node stack} {s : RState} (h : node ∈ s.visited) :
    visit g (fuel + 1) node stack s = s := by
  simp [visit, h]

lemma visit_cycle {g fuel node stack} {s : RState} (h1 : node ∉ s.visited)
    (h2 : node ∈ s.temp) :
    visit g (fuel + 1) node stack s =
    { s with cycles := s.cycles ++ [stack.drop (stack.indexOf node) ++ [node]] } := by
  simp [visit, h1, h2]

lemma visit_else {g fuel node stack} {s : RState} (h1 : node ∉ s.visited)
    (h2 : node ∉ s.temp) :
    visit g (fuel + 1) node stack s =
    { temp := (visitFold g fuel stack (sortedDeps g node)
        { s with temp := node :: s.temp }).temp.erase node,
      visited := node :: (visitFold g fuel stack (sortedDeps g node)
        { s with temp := node :: s.temp }).visited,
      resolved := (visitFold g fuel stack (sortedDeps g node)
        { s with temp := node :: s.temp }).resolved ++ [node],
      cycles := (visitFold g fuel stack (sortedDeps g node)
        { s with temp := node :: s.temp }).cycles } := by
  simp [visit, h1, h2, visitFold]

lemma visitFold_temp {g fuel stack}
    (H : ∀ node stack2 s, (visit g fuel node stack2 s).temp = s.temp) :
    ∀ ds st, (visitFold g fuel stack ds st).temp = st.temp := by
  intro ds
  induction ds with
  | nil => intro st; rfl
  | cons d ds ih =>
    intro st
    rw [visitFold_cons, ih, H]

lemma visit_temp (g : List (String × List String)) :
    ∀ fuel node stack s, (visit g fuel node stack s).temp = s.temp := by
  intro fuel
  induction fuel with
  | zero => intro node stack s; rfl
  | succ f ih =>
    intro node stack s
    by_cases h1 : node ∈ s.visited
    · rw [visit_visited h1]
    · by_cases h2 : node ∈ s.temp
      · rw [visit_cycle h1 h2]
      · rw [visit_else h1 h2]
        simp only []
        rw [visitFold_temp ih]
        exact List.erase_cons_head node s.temp

lemma cycle_contains {node d : String} {stack0 : List String}
    (hd : d ∈ stack0 ++ [node]) :
    node ∈ ((stack0 ++ [node]) ++ [d]).drop
        (((stack0 ++ [node]) ++ [d]).indexOf d) ++ [d] ∧
    d ∈ ((stack0 ++ [node]) ++ [d]).drop
        (((stack0 ++ [node]) ++ [d]).indexOf d) ++ [d] := by
  have hidx : ((stack0 ++ [node]) ++ [d]).indexOf d = (stack0 ++ [node]).indexOf d :=
    List.indexOf_append_of_mem hd
  have hlt : (stack0 ++ [node]).indexOf d < (stack0 ++ [node]).length :=
    List.indexOf_lt_length.mpr hd
  have hle : (stack0 ++ [node]).indexOf d ≤ stack0.length := by
    have hL : (stack0 ++ [node]).length = stack0.length + 1 := by simp
    omega
  have hdrop : ((stack0 ++ [node]) ++ [d]).drop ((stack0 ++ [node]).indexOf d) =
      (stack0 ++ [node]).drop ((stack0 ++ [node]).indexOf d) ++ [d] :=
    List.drop_append_of_le_length (le_of_lt hlt)
  have hdrop2 : (stack0 ++ [node]).drop ((stack0 ++ [node]).indexOf d) =
      stack0.drop ((stack0 ++ [node]).indexOf d) ++ [node] :=
    List.drop_append_of_le_length hle
  rw [hidx, hdrop, hdrop2]
  constructor
  · simp
  · simp

/-- Main soundness induction for visit: with fuel respecting the depth
bound, the invariant is preserved, the state only extends, and the visited
node ends up finished unless it was already on the traversal path. -/
lemma visit_sound (g : List (String × List String)) :
    ∀ (fuel : Nat) (node : String) (stack0 : List String) (s : RState),
    (graphNames g).length + 1 ≤ fuel + s.temp.length →
    s.temp.Nodup → (∀ x ∈ s.temp, x ∈ graphNames g) →
    node ∈ graphNames g → (∀ x ∈ s.temp, x ∈ stack0) → InvR g s →
    InvR g (visit g fuel node (stack0 ++ [node]) s) ∧
      ExtendsR s (visit g fuel node (stack0 ++ [node]) s) ∧
      (node ∈ (visit g fuel node (stack0 ++ [node]) s).visited ∨ node ∈ s.temp) := by
  intro fuel
  induction fuel with
  | zero =>
    intro node stack0 s hb hnd hsub _ _ _
    exfalso
    have hlen : s.temp.length ≤ (graphNames g).length :=
      (List.subperm_of_subset hnd hsub).length_le
    omega
  | succ f ih =>
    intro node stack0 s hb hnd hsub hnode hstk hInv
    obtain ⟨hA1, hA2, hA4, hA3⟩ := hInv
    by_cases h1 : node ∈ s.visited
    · rw [visit_visited h1]
      exact ⟨⟨hA1, hA2, hA4, hA3⟩, extendsR_refl s, Or.inl h1⟩
    by_cases h2 : node ∈ s.temp
    · rw [visit_cycle h1 h2]
      refine ⟨⟨hA1, hA2, hA4, ?_⟩,
        ⟨rfl, fun x h => h, ⟨[], by simp⟩, ⟨_, rfl⟩⟩, Or.inr h2⟩
      intro T hT D hD
      rcases hA3 T hT D hD with h | ⟨c, hc, hTc, hDc⟩
      · exact Or.inl h
      · exact Or.inr ⟨c, List.mem_append_left _ hc, hTc, hDc⟩
    rw [visit_else h1 h2]
    have hnd1 : (node :: s.temp).Nodup := List.nodup_cons.mpr ⟨h2, hnd⟩
    have hsub1 : ∀ x ∈ node :: s.temp, x ∈ graphNames g := by
      intro x hx
      rcases List.mem_cons.mp hx with rfl | hx
      · exact hnode
      · exact hsub x hx
    have hstk1 : ∀ x ∈ node :: s.temp, x ∈ stack0 ++ [node] := by
      intro x hx
      rcases List.mem_cons.mp hx with rfl | hx
      · exact List.mem_append_right _ (by simp)
      · exact List.mem_append_left _ (hstk x hx)
    have hlen1 : (node :: s.temp).length ≤ (graphNames g).length :=
      (List.subperm_of_subset hnd1 hsub1).length_le
    simp only [List.length_cons] at hlen1
    obtain ⟨f2, rfl⟩ : ∃ f2, f = f2 + 1 := ⟨f - 1, by omega⟩
    have hfold : ∀ ds st, (∀ d ∈ ds, d ∈ graphNames g) → InvR g st →
        st.temp = node :: s.temp →
        InvR g (visitFold g (f2 + 1) (stack0 ++ [node]) ds st) ∧
          ExtendsR st (visitFold g (f2 + 1) (stack0 ++ [node]) ds st) ∧
          (∀ d ∈ ds,
            d ∈ (visitFold g (f2 + 1) (stack0 ++ [node]) ds st).resolved ∨
            ∃ c ∈ (visitFold g (f2 + 1) (stack0 ++ [node]) ds st).cycles,
              node ∈ c ∧ d ∈ c) := by
      intro ds
      induction ds with
      | nil =>
        intro st _ hI _
        exact ⟨hI, extendsR_refl st, by simp⟩
      | cons d ds ihds =>
        intro st hds hI htemp
        obtain ⟨iA1, iA2, iA4, iA3⟩ := hI
        rw [visitFold_cons]
        by_cases hd1 : d ∈ st.visited
        · rw [visit_visited hd1]
          obtain ⟨jInv, jExt, jDeps⟩ :=
            ihds st (fun x hx => hds x (List.mem_cons_of_mem d hx))
              ⟨iA1, iA2, iA4, iA3⟩ htemp
          refine ⟨jInv, jExt, ?_⟩
          intro e he
          rcases List.mem_cons.mp he with rfl | he
          · left
            obtain ⟨-, -, ⟨r, hr⟩, -⟩ := jExt
            rw [hr]
            exact List.mem_append_left _ ((iA1 e).mp hd1)
          · exact jDeps e he
        · by_cases hd2 : d ∈ st.temp
          · rw [visit_cycle hd1 hd2]
            have hdL : d ∈ stack0 ++ [node] := by
              rw [htemp] at hd2
              rcases List.mem_cons.mp hd2 with rfl | hd2
              · exact List.mem_append_right _ (by simp)
              · exact List.mem_append_left _ (hstk d hd2)
            have hcycmem := cycle_contains hdL
            have hI2 : InvR g { st with cycles := st.cycles ++
                [((stack0 ++ [node]) ++ [d]).drop
                  (((stack0 ++ [node]) ++ [d]).indexOf d) ++ [d]] } := by
              refine ⟨iA1, iA2, iA4, ?_⟩
              intro T hT D hD
              rcases iA3 T hT D hD with h | ⟨c, hc, hTc, hDc⟩
              · exact Or.inl h
              · exact Or.inr ⟨c, List.mem_append_left _ hc, hTc, hDc⟩
            obtain ⟨jInv, jExt, jDeps⟩ :=
              ihds _ (fun x hx => hds x (List.mem_cons_of_mem d hx)) hI2 htemp
            have hmid : ExtendsR st { st with cycles := st.cycles ++
                [((stack0 ++ [node]) ++ [d]).drop
                  (((stack0 ++ [node]) ++ [d]).indexOf d) ++ [d]] } :=
              ⟨rfl, fun x h => h, ⟨[], by simp⟩, ⟨_, rfl⟩⟩
            refine ⟨jInv, extendsR_trans hmid jExt, ?_⟩
            intro e he
            rcases List.mem_cons.mp he with rfl | he
            · right
              obtain ⟨-, -, -, ⟨cs, hcs⟩⟩ := jExt
              refine ⟨((stack0 ++ [node]) ++ [e]).drop
                  (((stack0 ++ [node]) ++ [e]).indexOf e) ++ [e], ?_,
                hcycmem.1, hcycmem.2⟩
              rw [hcs]
              exact List.mem_append_left _ (List.mem_append_right _ (by simp))
            · exact jDeps e he
          · have hdN : d ∈ graphNames g := hds d (List.mem_cons_self d ds)
            have hbd : (graphNames g).length + 1 ≤ (f2 + 1) + st.temp.length := by
              rw [htemp]
              simp only [List.length_cons]
              omega
            have hndd : st.temp.Nodup := htemp ▸ hnd1
            have hsubd : ∀ x ∈ st.temp, x ∈ graphNames g := htemp ▸ hsub1
            have hstkd : ∀ x ∈ st.temp, x ∈ stack0 ++ [node] := htemp ▸ hstk1
            obtain ⟨kInv, kExt, kVis⟩ := ih d (stack0 ++ [node]) st hbd hndd
              hsubd hdN hstkd ⟨iA1, iA2, iA4, iA3⟩
            have hdvis : d ∈ (visit g (f2 + 1) d ((stack0 ++ [node]) ++ [d]) st).visited := by
              rcases kVis with h | h
              · exact h
              · exact absurd h hd2
            have htemp2 : (visit g (f2 + 1) d ((stack0 ++ [node]) ++ [d]) st).temp =
                node :: s.temp := by
              rw [visit_temp]; exact htemp
            obtain ⟨jInv, jExt, jDeps⟩ :=
              ihds _ (fun x hx => hds x (List.mem_cons_of_mem d hx)) kInv htemp2
            refine ⟨jInv, extendsR_trans kExt jExt, ?_⟩
            intro e he
            rcases List.mem_cons.mp he with rfl | he
            · left
              obtain ⟨-, -, ⟨r, hr⟩, -⟩ := jExt
              rw [hr]
              exact List.mem_append_left _ ((kInv.1 e).mp hdvis)
            · exact jDeps e he
    have hA4s1 : ∀ n ∈ (node :: s.temp), n ∉ s.visited := by
      intro n hn
      rcases List.mem_cons.mp hn with rfl | hn
      · exact h1
      · exact hA4 n hn
    obtain ⟨⟨fA1, fA2, fA4, fA3⟩, fExt, fDeps⟩ :=
      hfold (sortedDeps g node) { s with temp := node :: s.temp }
        (fun d hd => sortedDeps_subset_graphNames hd)
        ⟨hA1, hA2, hA4s1, hA3⟩ rfl
    set s2 := visitFold g (f2 + 1) (stack0 ++ [node]) (sortedDeps g node)
      { s with temp := node :: s.temp } with hs2
    have htemp2 : s2.temp = node :: s.temp := fExt.1
    have hnotvis2 : node ∉ s2.visited := by
      refine fA4 node ?_
      rw [htemp2]
      exact List.mem_cons_self node s.temp
    have hnotres2 : node ∉ s2.resolved := fun hmem => hnotvis2 ((fA1 node).mpr hmem)
    refine ⟨⟨?_, ?_, ?_, ?_⟩, ⟨?_, ?_, ?_, ?_⟩, Or.inl (List.mem_cons_self _ _)⟩
    · intro n
      constructor
      · intro h
        rcases List.mem_cons.mp h with rfl | h
        · exact List.mem_append_right _ (by simp)
        · exact List.mem_append_left _ ((fA1 n).mp h)
      · intro h
        rcases List.mem_append.mp h with h | h
        · exact List.mem_cons_of_mem _ ((fA1 n).mpr h)
        · rw [List.mem_singleton.mp h]
          exact List.mem_cons_self _ _
    · refine List.nodup_append.mpr ⟨fA2, List.nodup_singleton node, ?_⟩
      intro a ha ha2
      rw [List.mem_singleton.mp ha2] at ha
      exact hnotres2 ha
    · intro n hn
      have hn2 : n ∈ s.temp := by
        rw [htemp2, List.erase_cons_head] at hn
        exact hn
      intro hcontra
      rcases List.mem_cons.mp hcontra with rfl | hcontra
      · exact h2 hn2
      · exact fA4 n (by rw [htemp2]; exact List.mem_cons_of_mem _ hn2) hcontra
    · intro T hT D hD
      rcases List.mem_append.mp hT with hT2 | hT2
      · rcases fA3 T hT2 D hD with ⟨hDr, hidx⟩ | ⟨c, hc, hTc, hDc⟩
        · refine Or.inl ⟨List.mem_append_left _ hDr, ?_⟩
          rw [List.indexOf_append_of_mem hDr, List.indexOf_append_of_mem hT2]
          exact hidx
        · exact Or.inr ⟨c, hc, hTc, hDc⟩
      · rw [List.mem_singleton.mp hT2]
        rw [List.mem_singleton.mp hT2] at hD
        rcases fDeps D hD with hDr | ⟨c, hc, hnc, hDc⟩
        · refine Or.inl ⟨List.mem_append_left _ hDr, ?_⟩
          rw [List.indexOf_append_of_mem hDr,
            List.indexOf_append_of_not_mem hnotres2]
          have hlt2 : s2.resolved.indexOf D < s2.resolved.length :=
            List.indexOf_lt_length.mpr hDr
          have h0 : ([node] : List String).indexOf node = 0 :=
            List.indexOf_cons_self node []
          rw [h0]
          omega
        · exact Or.inr ⟨c, hc, hnc, hDc⟩
    · show s2.temp.erase node = s.temp
      rw [htemp2]
      exact List.erase_cons_head node s.temp
    · intro x hx
      exact List.mem_cons_of_mem _ (fExt.2.1 x hx)
    · obtain ⟨-, -, ⟨r, hr⟩, -⟩ := fExt
      exact ⟨r ++ [node], by rw [hr, List.append_assoc]⟩
    · obtain ⟨-, -, -, ⟨c, hc⟩⟩ := fExt
      exact ⟨c, hc⟩

lemma resolveLoop_cons (g : List (String × List String)) (fuel : Nat)
    (t : String) (ts : List String) (s : RState) :
    resolveLoop g fuel (t :: ts) s = resolveLoop g fuel ts (visit g fuel t [t] s) := rfl

lemma mem_sortedKeys {g : List (String × List String)} {t : String} :
    t ∈ sortedKeys g ↔ t ∈ g.map Prod.fst := by
  rw [sortedKeys, mem_sortStrings]

/-- Soundness of the outer key loop of the resolver, run at the canonical
fuel. -/
lemma resolveLoop_sound (g : List (String × List String)) :
    ∀ (ts : List String) (s : RState), (∀ t ∈ ts, t ∈ graphNames g) →
    InvR g s → s.temp = [] →
    InvR g (resolveLoop g (resolveFuel g) ts s) ∧
      ExtendsR s (resolveLoop g (resolveFuel g) ts s) ∧
      (∀ t ∈ ts, t ∈ (resolveLoop g (resolveFuel g) ts s).visited) := by
  intro ts
  induction ts with
  | nil =>
    intro s _ hI _
    exact ⟨hI, extendsR_refl s, by simp⟩
  | cons t ts ih =>
    intro s hts hI htemp
    rw [resolveLoop_cons]
    have hb : (graphNames g).length + 1 ≤ resolveFuel g + s.temp.length := by
      rw [htemp]
      simp [resolveFuel]
    have hnd : s.temp.Nodup := by rw [htemp]; exact List.nodup_nil
    have hsub : ∀ x ∈ s.temp, x ∈ graphNames g := by rw [htemp]; simp
    have hstk : ∀ x ∈ s.temp, x ∈ ([] : List String) := by rw [htemp]; simp
    obtain ⟨kInv, kExt, kVis⟩ := visit_sound g (resolveFuel g) t [] s hb hnd hsub
      (hts t (List.mem_cons_self t ts)) hstk hI
    have htemp2 : (visit g (resolveFuel g) t [t] s).temp = [] := by
      rw [visit_temp]; exact htemp
    obtain ⟨jInv, jExt, jVis⟩ :=
      ih _ (fun x hx => hts x (List.mem_cons_of_mem t hx)) kInv htemp2
    refine ⟨jInv, extendsR_trans kExt jExt, ?_⟩
    intro e he
    rcases List.mem_cons.mp he with rfl | he
    · have hev : e ∈ (visit g (resolveFuel g) e [e] s).visited := by
        rcases kVis with h | h
        · exact h
        · rw [htemp] at h; cases h
      exact jExt.2.1 e hev
    · exact jVis e he

/-- Fuel irrelevance of visit above the depth bound: the recursion
terminates, in that extra fuel is never consumed. -/
lemma visit_stable (g : List (String × List String)) :
    ∀ (f1 f2 : Nat) (node : String) (stack : List String) (s : RState),
    (graphNames g).length + 1 ≤ f1 + s.temp.length →
    (graphNames g).length + 1 ≤ f2 + s.temp.length →
    s.temp.Nodup → (∀ x ∈ s.temp, x ∈ graphNames g) → node ∈ graphNames g →
    visit g f1 node stack s = visit g f2 node stack s := by
  intro f1
  induction f1 with
  | zero =>
    intro f2 node stack s hb1 _ hnd hsub _
    exfalso
    have hlen : s.temp.length ≤ (graphNames g).length :=
      (List.subperm_of_subset hnd hsub).length_le
    omega
  | succ f1 ih =>
    intro f2 node stack s hb1 hb2 hnd hsub hnode
    have hlen : s.temp.length ≤ (graphNames g).length :=
      (List.subperm_of_subset hnd hsub).length_le
    obtain ⟨f2p, rfl⟩ : ∃ k, f2 = k + 1 := ⟨f2 - 1, by omega⟩
    by_cases h1 : node ∈ s.visited
    · rw [visit_visited h1, visit_visited h1]
    by_cases h2 : node ∈ s.temp
    · rw [visit_cycle h1 h2, visit_cycle h1 h2]
    rw [visit_else h1 h2, visit_else h1 h2]
    have hnd1 : (node :: s.temp).Nodup := List.nodup_cons.mpr ⟨h2, hnd⟩
    have hsub1 : ∀ x ∈ node :: s.temp, x ∈ graphNames g := by
      intro x hx
      rcases List.mem_cons.mp hx with rfl | hx
      · exact hnode
      · exact hsub x hx
    have hfold : ∀ ds st, (∀ d ∈ ds, d ∈ graphNames g) →
        st.temp = node :: s.temp →
        visitFold g f1 stack ds st = visitFold g f2p stack ds st := by
      intro ds
      induction ds with
      | nil => intro st _ _; rfl
      | cons d ds ihds =>
        intro st hds htemp
        rw [visitFold_cons, visitFold_cons]
        have hv : visit g f1 d (stack ++ [d]) st = visit g f2p d (stack ++ [d]) st := by
          apply ih
          · rw [htemp]; simp only [List.length_cons]; omega
          · rw [htemp]; simp only [List.length_cons]; omega
          · rw [htemp]; exact hnd1
          · rw [htemp]; exact hsub1
          · exact hds d (List.mem_cons_self d ds)
        rw [hv]
        apply ihds _ (fun x hx => hds x (List.mem_cons_of_mem d hx))
        rw [visit_temp]
        exact htemp
    rw [hfold (sortedDeps g node) _ (fun d hd => sortedDeps_subset_graphNames hd) rfl]

/-- Fuel irrelevance of the whole resolver loop above the bound. -/
lemma resolveLoop_stable (g : List (String × List String)) :
    ∀ (ts : List String) (f1 f2 : Nat) (s : RState), s.temp = [] →
    (graphNames g).length + 1 ≤ f1 → (graphNames g).length + 1 ≤ f2 →
    (∀ t ∈ ts, t ∈ graphNames g) →
    resolveLoop g f1 ts s = resolveLoop g f2 ts s := by
  intro ts
  induction ts with
  | nil => intro f1 f2 s _ _ _ _; rfl
  | cons t ts ih =>
    intro f1 f2 s htemp hb1 hb2 hts
    rw [resolveLoop_cons, resolveLoop_cons]
    have hv : visit g f1 t [t] s = visit g f2 t [t] s := by
      apply visit_stable g f1 f2 t [t] s
      · rw [htemp]; simpa using hb1
      · rw [htemp]; simpa using hb2
      · rw [htemp]; exact List.nodup_nil
      · rw [htemp]; simp
      · exact hts t (List.mem_cons_self t ts)
    rw [hv]
    apply ih
    · rw [visit_temp]; exact htemp
    · exact hb1
    · exact hb2
    · exact fun x hx => hts x (List.mem_cons_of_mem t hx)

/-! ## Claim theorems for the resolver -/

/-- C1: for every dependency graph and tables T, D with D a dependency of
T and D present as a node, D is placed strictly before T in the resolved
order, unless T and D occur together in some reported cycle. -/
theorem resolver_topological_validity (g : List (String × List String))
    (T D : String) (hT : T ∈ g.map Prod.fst) (hD : D ∈ depsOf g T)
    (_hDnode : D ∈ g.map Prod.fst)
    (hnc : ¬ ∃ c ∈ (resolve g).cycles, T ∈ c ∧ D ∈ c) :
    (resolve g).resolved.indexOf D < (resolve g).resolved.indexOf T := by
  obtain ⟨⟨rA1, rA2, rA4, rA3⟩, rExt, rVis⟩ := resolveLoop_sound g (sortedKeys g)
    initRState (fun t ht => sortedKeys_subset_graphNames ht) (invR_init g) rfl
  have hTres : T ∈ (resolve g).resolved := (rA1 T).mp (rVis T (mem_sortedKeys.mpr hT))
  have hDdep : D ∈ sortedDeps g T := mem_sortedDeps.mpr hD
  rcases rA3 T hTres D hDdep with ⟨_, hlt⟩ | hcyc
  · exact hlt
  · exact absurd hcyc hnc

/-- C1 witness: in the graph where role_permissions references roles, the
parent is placed first. -/
theorem resolver_topological_validity_witness :
    (resolve [("role_permissions", ["roles"]), ("roles", [])]).resolved.indexOf "roles" <
    (resolve [("role_permissions", ["roles"]), ("roles", [])]).resolved.indexOf
      "role_permissions" :=
  resolver_topological_validity _ "role_permissions" "roles" (by decide)
    (by decide) (by decide) (by decide)

/-- C2: on every graph, self-referencing and cyclic ones included, the
traversal never consumes more than the canonical fuel (it terminates with
recursion depth bounded by the number of distinct names), and every node of
the graph appears exactly once in the resolved order. -/
theorem resolver_terminates_each_node_once (g : List (String × List String)) :
    (∀ fuel, resolveFuel g ≤ fuel →
      resolveLoop g fuel (sortedKeys g) initRState = resolve g) ∧
    (∀ t ∈ g.map Prod.fst, (resolve g).resolved.count t = 1) := by
  constructor
  · intro fuel hf
    unfold resolve
    apply resolveLoop_stable g (sortedKeys g) fuel (resolveFuel g) initRState rfl
    · simpa [resolveFuel] using hf
    · simp [resolveFuel]
    · exact fun t ht => sortedKeys_subset_graphNames ht
  · intro t ht
    obtain ⟨⟨rA1, rA2, -, -⟩, -, rVis⟩ := resolveLoop_sound g (sortedKeys g)
      initRState (fun x hx => sortedKeys_subset_graphNames hx) (invR_init g) rfl
    have hres : t ∈ (resolve g).resolved :=
      (rA1 t).mp (rVis t (mem_sortedKeys.mpr ht))
    exact List.count_eq_one_of_mem rA2 hres

/-- C2 witness: on the two table cycle, extra fuel changes nothing and a
appears exactly once. -/
theorem resolver_terminates_each_node_once_witness :
    resolveLoop [("a", ["b"]), ("b", ["a"])]
      (resolveFuel [("a", ["b"]), ("b", ["a"])] + 5)
      (sortedKeys [("a", ["b"]), ("b", ["a"])]) initRState =
      resolve [("a", ["b"]), ("b", ["a"])] ∧
    (resolve [("a", ["b"]), ("b", ["a"])]).resolved.count "a" = 1 :=
  ⟨(resolver_terminates_each_node_once _).1 _ (by decide),
   (resolver_terminates_each_node_once _).2 "a" (by decide)⟩

/-- C7 counterexample: on the two table cycle the recorded cycle is
[a, b, a, a], which is neither [a, b, a] nor any rotation of it; the code
appends the closing node to a path that already ends with it. -/
theorem cycle_report_shape_counterexample :
    (resolve [("a", ["b"]), ("b", ["a"])]).cycles = [["a", "b", "a", "a"]] ∧
    (∀ c ∈ (resolve [("a", ["b"]), ("b", ["a"])]).cycles,
      c ≠ ["a", "b", "a"] ∧ c ≠ ["b", "a", "a"] ∧ c ≠ ["a", "a", "b"]) := by
  decide

/-- C7 amended: the cycle report on the two table cycle is exactly
[[a, b, a, a]] (the path segment from the first occurrence of a, with the
entry node repeated at the end), and both tables still appear exactly once
in the resolved order. -/
theorem cycle_report_shape_amended :
    (resolve [("a", ["b"]), ("b", ["a"])]).cycles = [["a", "b", "a", "a"]] ∧
    (resolve [("a", ["b"]), ("b", ["a"])]).resolved.count "a" = 1 ∧
    (resolve [("a", ["b"]), ("b", ["a"])]).resolved.count "b" = 1 := by
  decide

/-! ## Assignor proofs -/

lemma write_group_content_fail {group content : String} {st : AState}
    (h : st.groupLines group + lineCount content > LINE_LIMIT) :
    write_group_content group content st = (false, st) := by
  unfold write_group_content
  rw [if_pos h]

lemma write_group_content_ok {group content : String} {st : AState}
    (h : ¬ st.groupLines group + lineCount content > LINE_LIMIT) :
    write_group_content group content st =
    (true,
     { st with
       groupContents := fun g =>
         if g = group then
           (if st.groupContents group = "" then content
            else st.groupContents group ++ "\n\n" ++ content)
         else st.groupContents g,
       groupLines := fun g =>
         if g = group then st.groupLines g + lineCount content
         else st.groupLines g }) := by
  unfold write_group_content
  rw [if_neg h]

lemma placeFrom_cons (table block group : String) (rest : List String)
    (st : AState) :
    placeFrom table block (group :: rest) st =
    (if (write_group_content group block st).1 then
      Except.ok (write_group_content group block st).2
     else
      match rest with
      | [] => Except.error (limitMessage table)
      | next :: _ =>
        placeFrom table block rest
          { st with log := st.log ++ [exceededLine group table next] }) := rfl

/-- Budgets are respected by a single commit. -/
lemma write_group_content_le (group content : String) (st : AState)
    (h : ∀ g, st.groupLines g ≤ LINE_LIMIT) (g : String) :
    (write_group_content group content st).2.groupLines g ≤ LINE_LIMIT := by
  by_cases hc : st.groupLines group + lineCount content > LINE_LIMIT
  · rw [write_group_content_fail hc]
    exact h g
  · rw [write_group_content_ok hc]
    by_cases hg : g = group
    · subst hg
      simp
      omega
    · simp [hg]
      exact h g

/-- Budgets are respected along a whole cascade. -/
lemma placeFrom_bound (table block : String) :
    ∀ (gs : List String) (st st2 : AState),
    (∀ g, st.groupLines g ≤ LINE_LIMIT) →
    placeFrom table block gs st = .ok st2 →
    ∀ g, st2.groupLines g ≤ LINE_LIMIT := by
  intro gs
  induction gs with
  | nil =>
    intro st st2 h hp
    cases hp
    exact h
  | cons group rest ih =>
    intro st st2 h hp
    rw [placeFrom_cons] at hp
    by_cases hc : st.groupLines group + lineCount block > LINE_LIMIT
    · rw [write_group_content_fail hc] at hp
      simp only [Bool.false_eq_true, if_false] at hp
      cases rest with
      | nil => cases hp
      | cons next more =>
        exact ih { st with log := st.log ++ [exceededLine group table next] } st2 h hp
    · rw [write_group_content_ok hc] at hp
      simp only [if_true] at hp
      cases hp
      intro g
      have hle := write_group_content_le group block st h g
      rw [write_group_content_ok hc] at hle
      exact hle


lemma processTable_none {files : List (String × String)} {st : AState}
    {t : String} (h : lookupFile files t = none) :
    processTable files st t = .ok st := by
  unfold processTable
  rw [h]

lemma processTable_noddl {files : List (String × String)} {st : AState}
    {t text : String} (h : lookupFile files t = some text)
    (h2 : (split_statements text).filter is_ddl = []) :
    processTable files st t = .ok st := by
  unfold processTable
  rw [h]
  simp [h2]

lemma processTable_ddl {files : List (String × String)} {st : AState}
    {t text : String} (h : lookupFile files t = some text)
    (h2 : (split_statements text).filter is_ddl ≠ []) :
    processTable files st t =
    (match placeFrom t (joinSep "\n\n" ((split_statements text).filter is_ddl))
        (GROUP_ORDER.drop (GROUP_ORDER.indexOf (assign_group t))) st with
     | .error e => .error e
     | .ok st2 => .ok { st2 with
         seeds := ((split_statements text).filter is_insert).foldl
           (fun seeds stmt =>
             if t ∈ ALLOWED_SEED_TABLES then seeds ++ [stmt] else seeds)
           st2.seeds }) := by
  unfold processTable
  rw [h]
  simp [h2]

lemma runTables_cons (files : List (String × String)) (t : String)
    (ts : List String) (st : AState) :
    runTables files (t :: ts) st =
    (match processTable files st t with
     | .error e => .error e
     | .ok st2 => runTables files ts st2) := rfl

/-- Constant-condition evaluation of the seed fold. -/
lemma seeds_fold (c : Prop) [Decidable c] :
    ∀ (l acc : List String),
    l.foldl (fun seeds stmt => if c then seeds ++ [stmt] else seeds) acc =
    if c then acc ++ l else acc := by
  intro l
  induction l with
  | nil => intro acc; by_cases h : c <;> simp [h]
  | cons x xs ih =>
    intro acc
    by_cases h : c
    · rw [List.foldl_cons, if_pos h, ih, if_pos h, if_pos h]
      simp
    · rw [List.foldl_cons, if_neg h, ih, if_neg h, if_neg h]

lemma processTable_bound {files : List (String × String)} {st st2 : AState}
    {t : String} (h : ∀ g, st.groupLines g ≤ LINE_LIMIT)
    (hp : processTable files st t = .ok st2) :
    ∀ g, st2.groupLines g ≤ LINE_LIMIT := by
  cases hlk : lookupFile files t with
  | none =>
    rw [processTable_none hlk] at hp
    cases hp
    exact h
  | some text =>
    by_cases hdd : (split_statements text).filter is_ddl = []
    · rw [processTable_noddl hlk hdd] at hp
      cases hp
      exact h
    · rw [processTable_ddl hlk hdd] at hp
      cases hpl : placeFrom t (joinSep "\n\n" ((split_statements text).filter is_ddl))
          (GROUP_ORDER.drop (GROUP_ORDER.indexOf (assign_group t))) st with
      | error e => rw [hpl] at hp; cases hp
      | ok st3 =>
        rw [hpl] at hp
        cases hp
        exact placeFrom_bound t _ _ st st3 h hpl

lemma runTables_bound {files : List (String × String)} :
    ∀ (ts : List String) (st st2 : AState),
    (∀ g, st.groupLines g ≤ LINE_LIMIT) → runTables files ts st = .ok st2 →
    ∀ g, st2.groupLines g ≤ LINE_LIMIT := by
  intro ts
  induction ts with
  | nil =>
    intro st st2 h hp
    cases hp
    exact h
  | cons t ts ih =>
    intro st st2 h hp
    rw [runTables_cons] at hp
    cases hpt : processTable files st t with
    | error e => rw [hpt] at hp; cases hp
    | ok st3 =>
      rw [hpt] at hp
      exact ih st3 st2 (processTable_bound h hpt) hp

/-- C3: after every placement every group, the catch-all included, holds at
most LINE_LIMIT lines, and a block that does not fit the catch-all group
makes the loop abort with the fatal message instead of overflowing. -/
theorem assignor_budget_respected (order : List String)
    (files : List (String × String)) :
    (∀ (i : Nat) (st : AState),
      runTables files (order.take i) initAState = .ok st →
      ∀ g, st.groupLines g ≤ LINE_LIMIT) ∧
    (∀ (table block : String) (st : AState),
      st.groupLines "misc" + lineCount block > LINE_LIMIT →
      placeFrom table block ["misc"] st = .error (limitMessage table)) := by
  constructor
  · intro i st h
    exact runTables_bound (order.take i) initAState st (fun g => Nat.zero_le _) h
  · intro table block st h
    rw [placeFrom_cons, write_group_content_fail h]
    simp

/-- Small concrete run shared by the assignor witnesses. -/
def filesA : List (String × String) :=
  [("roles", "CREATE TABLE roles (id INT);\nINSERT INTO roles VALUES (1);"),
   ("users", "CREATE TABLE users (id INT);")]

/-- Order of the concrete run. -/
def orderA : List String := ["roles", "users"]

/-- Final state of the concrete run. -/
def stA : AState :=
  match runTables filesA orderA initAState with
  | .ok st => st
  | .error _ => initAState

/-- C3 witness: the concrete run succeeds and the core group stays within
budget. -/
theorem assignor_budget_respected_witness :
    runTables filesA (orderA.take 2) initAState = .ok stA ∧
    stA.groupLines "core" ≤ LINE_LIMIT :=
  ⟨rfl, (assignor_budget_respected orderA filesA).1 2 stA rfl "core"⟩

lemma placeFrom_error_iff (table block : String) :
    ∀ (gs : List String) (st : AState) (msg : String),
    placeFrom table block gs st = .error msg ↔
    (gs ≠ [] ∧ (∀ g ∈ gs, st.groupLines g + lineCount block > LINE_LIMIT) ∧
      msg = limitMessage table) := by
  intro gs
  induction gs with
  | nil =>
    intro st msg
    constructor
    · intro h; cases h
    · rintro ⟨h, -, -⟩; exact absurd rfl h
  | cons group rest ih =>
    intro st msg
    rw [placeFrom_cons]
    by_cases hc : st.groupLines group + lineCount block > LINE_LIMIT
    · rw [write_group_content_fail hc]
      simp only [Bool.false_eq_true, if_false]
      cases rest with
      | nil =>
        constructor
        · intro h
          cases h
          refine ⟨by simp, ?_, rfl⟩
          intro g hg
          rw [List.mem_singleton.mp hg]
          exact hc
        · rintro ⟨-, -, h3⟩
          rw [h3]
      | cons next more =>
        refine Iff.trans
          (ih { st with log := st.log ++ [exceededLine group table next] } msg) ?_
        constructor
        · rintro ⟨-, h2, h3⟩
          refine ⟨by simp, ?_, h3⟩
          intro g hg
          rcases List.mem_cons.mp hg with rfl | hg
          · exact hc
          · exact h2 g hg
        · rintro ⟨-, h2, h3⟩
          refine ⟨by simp, ?_, h3⟩
          intro g hg
          exact h2 g (List.mem_cons_of_mem group hg)
    · rw [write_group_content_ok hc]
      simp only [if_true]
      constructor
      · intro h; cases h
      · rintro ⟨-, h2, -⟩
        exact absurd (h2 group (List.mem_cons_self group rest)) hc

lemma runTables_error_iff (files : List (String × String)) :
    ∀ (ts : List String) (st0 : AState) (msg : String),
    runTables files ts st0 = .error msg ↔
    ∃ i, i < ts.length ∧ ∃ st, runTables files (ts.take i) st0 = .ok st ∧
      processTable files st (ts.getD i "") = .error msg := by
  intro ts
  induction ts with
  | nil =>
    intro st0 msg
    constructor
    · intro h; cases h
    · rintro ⟨i, hi, -⟩
      exact absurd hi (by simp)
  | cons t ts ih =>
    intro st0 msg
    rw [runTables_cons]
    cases hpt : processTable files st0 t with
    | error e =>
      constructor
      · intro h
        cases h
        exact ⟨0, by simp, st0, rfl, hpt⟩
      · rintro ⟨i, hi, st, hpre, hping⟩
        cases i with
        | zero =>
          rw [List.take_zero] at hpre
          cases hpre
          rw [List.getD_cons_zero] at hping
          rw [hpt] at hping
          cases hping
          rfl
        | succ i =>
          rw [List.take_succ_cons, runTables_cons, hpt] at hpre
          cases hpre
    | ok st1 =>
      constructor
      · intro h
        obtain ⟨i, hi, st, hpre, hping⟩ := (ih st1 msg).mp h
        refine ⟨i + 1, by simpa using hi, st, ?_, by simpa using hping⟩
        rw [List.take_succ_cons, runTables_cons, hpt]
        exact hpre
      · rintro ⟨i, hi, st, hpre, hping⟩
        cases i with
        | zero =>
          rw [List.take_zero] at hpre
          cases hpre
          rw [List.getD_cons_zero] at hping
          rw [hpt] at hping
          cases hping
        | succ i =>
          rw [List.take_succ_cons, runTables_cons, hpt] at hpre
          exact (ih st1 msg).mpr ⟨i, by simpa using hi, st, hpre, by simpa using hping⟩

lemma processTable_error_iff (files : List (String × String)) (st : AState)
    (t msg : String) :
    processTable files st t = .error msg ↔
    ∃ text, lookupFile files t = some text ∧
      (split_statements text).filter is_ddl ≠ [] ∧
      placeFrom t (joinSep "\n\n" ((split_statements text).filter is_ddl))
        (GROUP_ORDER.drop (GROUP_ORDER.indexOf (assign_group t))) st = .error msg := by
  cases hlk : lookupFile files t with
  | none =>
    rw [processTable_none hlk]
    constructor
    · intro h; cases h
    · rintro ⟨text, htext, -, -⟩
      cases htext
  | some text =>
    by_cases hdd : (split_statements text).filter is_ddl = []
    · rw [processTable_noddl hlk hdd]
      constructor
      · intro h; cases h
      · rintro ⟨text2, htext, hne, -⟩
        cases htext
        exact absurd hdd hne
    · rw [processTable_ddl hlk hdd]
      cases hpl : placeFrom t (joinSep "\n\n" ((split_statements text).filter is_ddl))
          (GROUP_ORDER.drop (GROUP_ORDER.indexOf (assign_group t))) st with
      | error e =>
        constructor
        · intro h
          cases h
          exact ⟨text, rfl, hdd, hpl⟩
        · rintro ⟨text2, htext, -, hplace⟩
          cases htext
          rw [hpl] at hplace
          cases hplace
          rfl
      | ok st2 =>
        constructor
        · intro h; cases h
        · rintro ⟨text2, htext, -, hplace⟩
          cases htext
          rw [hpl] at hplace
          cases hplace

lemma GROUPS_keys : GROUPS.map Prod.fst = GROUP_ORDER := rfl

lemma assign_group_mem (t : String) : assign_group t ∈ GROUP_ORDER := by
  unfold assign_group
  cases hf : GROUPS.find? (fun gp => t ∈ gp.2) with
  | none => decide
  | some gp =>
    have hmem : gp ∈ GROUPS := List.mem_of_find?_eq_some hf
    have hmap : gp.1 ∈ GROUPS.map Prod.fst := List.mem_map_of_mem Prod.fst hmem
    rw [GROUPS_keys] at hmap
    exact hmap

lemma drop_indexOf_ne_nil {l : List String} {a : String} (h : a ∈ l) :
    l.drop (l.indexOf a) ≠ [] := by
  have hlt := List.indexOf_lt_length.mpr h
  intro hc
  have hlen : (l.drop (l.indexOf a)).length = l.length - l.indexOf a :=
    List.length_drop _ _
  rw [hc] at hlen
  simp at hlen
  omega

/-- C4: the assignor aborts with the fatal message naming a table exactly
when that table has a structural block which fails to fit every group from
its preferred one through the last (catch-all) one; no other condition
produces an error. -/
theorem assignor_abort_iff (order : List String)
    (files : List (String × String)) (msg : String) :
    mainRun order files = .error msg ↔
    ∃ i, i < order.length ∧ ∃ st,
      runTables files (order.take i) initAState = .ok st ∧
      ∃ text, lookupFile files (order.getD i "") = some text ∧
        (split_statements text).filter is_ddl ≠ [] ∧
        (∀ g ∈ GROUP_ORDER.drop
            (GROUP_ORDER.indexOf (assign_group (order.getD i ""))),
          st.groupLines g + lineCount (joinSep "\n\n"
            ((split_statements text).filter is_ddl)) > LINE_LIMIT) ∧
        msg = limitMessage (order.getD i "") := by
  unfold mainRun
  rw [runTables_error_iff]
  constructor
  · rintro ⟨i, hi, st, hpre, hp⟩
    obtain ⟨text, hlk, hdd, hplace⟩ := (processTable_error_iff files st _ msg).mp hp
    obtain ⟨-, hall, hmsg⟩ := (placeFrom_error_iff _ _ _ st msg).mp hplace
    exact ⟨i, hi, st, hpre, text, hlk, hdd, hall, hmsg⟩
  · rintro ⟨i, hi, st, hpre, text, hlk, hdd, hall, hmsg⟩
    refine ⟨i, hi, st, hpre, ?_⟩
    refine (processTable_error_iff files st _ msg).mpr ⟨text, hlk, hdd, ?_⟩
    exact (placeFrom_error_iff _ _ _ st msg).mpr
      ⟨drop_indexOf_ne_nil (assign_group_mem _), hall, hmsg⟩

/-- A structural block too large for any group. -/
def hugeBlock : String :=
  "CREATE TABLE users " ++ String.mk (List.replicate 600 '\n') ++ ";"

/-- Input directory holding only the oversized table. -/
def filesB : List (String × String) := [("users", hugeBlock)]

/-- C4 witness: the oversized block aborts the run with the message naming
the table. -/
theorem assignor_abort_iff_witness :
    mainRun ["users"] filesB = .error (limitMessage "users") :=
  (assignor_abort_iff ["users"] filesB (limitMessage "users")).mpr
    ⟨0, by decide, initAState, rfl, hugeBlock, rfl, by decide, by decide, rfl⟩

lemma getD_of_drop : ∀ (l : List String) (i : Nat) (g : String)
    (rest : List String), l.drop i = g :: rest → l.getD i "" = g := by
  intro l
  induction l with
  | nil =>
    intro i g rest h
    rw [List.drop_nil] at h
    cases h
  | cons x xs ih =>
    intro i g rest h
    cases i with
    | zero =>
      rw [List.drop_zero] at h
      cases h
      rfl
    | succ i =>
      rw [List.drop_succ_cons] at h
      rw [List.getD_cons_succ]
      exact ih i g rest h

lemma drop_succ_of_drop : ∀ (l : List String) (i : Nat) (g : String)
    (rest : List String), l.drop i = g :: rest → l.drop (i + 1) = rest := by
  intro l
  induction l with
  | nil =>
    intro i g rest h
    rw [List.drop_nil] at h
    cases h
  | cons x xs ih =>
    intro i g rest h
    cases i with
    | zero =>
      rw [List.drop_zero] at h
      cases h
      rfl
    | succ i =>
      rw [List.drop_succ_cons] at h
      rw [List.drop_succ_cons]
      exact ih i g rest h

lemma head?_drop_indexOf : ∀ (l : List String) (a : String), a ∈ l →
    (l.drop (l.indexOf a)).head? = some a := by
  intro l
  induction l with
  | nil => intro a ha; cases ha
  | cons x xs ih =>
    intro a ha
    by_cases hx : x = a
    · subst hx
      rw [List.indexOf_cons_self]
      rfl
    · rw [List.indexOf_cons_ne _ hx]
      rcases List.mem_cons.mp ha with rfl | ha
      · exact absurd rfl hx
      · rw [List.drop_succ_cons]
        exact ih a ha

/-- The cascade loop, started on the suffix of GROUP_ORDER at position i,
logs exactly one line per step for consecutive groups i, i+1, ..., i+k-1
and commits the block to the group at position i+k. -/
lemma placeFrom_ok_shape (table block : String) :
    ∀ (gs : List String) (i : Nat) (st st2 : AState),
    gs = GROUP_ORDER.drop i → i < GROUP_ORDER.length →
    placeFrom table block gs st = .ok st2 →
    ∃ k, i + k < GROUP_ORDER.length ∧
      st2.log = st.log ++ (List.range k).map (fun j =>
        exceededLine (GROUP_ORDER.getD (i + j) "") table
          (GROUP_ORDER.getD (i + j + 1) "")) ∧
      st2.groupLines (GROUP_ORDER.getD (i + k) "") =
        st.groupLines (GROUP_ORDER.getD (i + k) "") + lineCount block ∧
      (∀ g, g ≠ GROUP_ORDER.getD (i + k) "" →
        st2.groupLines g = st.groupLines g) := by
  intro gs
  induction gs with
  | nil =>
    intro i st st2 hdrop hi hp
    exfalso
    have hlen : (GROUP_ORDER.drop i).length = GROUP_ORDER.length - i :=
      List.length_drop _ _
    rw [← hdrop] at hlen
    simp at hlen
    omega
  | cons group rest ih =>
    intro i st st2 hdrop hi hp
    have hgi : GROUP_ORDER.getD i "" = group := getD_of_drop _ _ _ _ hdrop.symm
    rw [placeFrom_cons] at hp
    by_cases hc : st.groupLines group + lineCount block > LINE_LIMIT
    · rw [write_group_content_fail hc] at hp
      simp only [Bool.false_eq_true, if_false] at hp
      cases rest with
      | nil => cases hp
      | cons next more =>
        have hdrop2 : GROUP_ORDER.drop (i + 1) = next :: more :=
          drop_succ_of_drop _ _ _ _ hdrop.symm
        have hnext : GROUP_ORDER.getD (i + 1) "" = next :=
          getD_of_drop _ _ _ _ hdrop2
        have hi1 : i + 1 < GROUP_ORDER.length := by
          have hlen : (GROUP_ORDER.drop (i + 1)).length =
              GROUP_ORDER.length - (i + 1) := List.length_drop _ _
          rw [hdrop2] at hlen
          simp at hlen
          omega
        obtain ⟨k, hk, hlog, hlines, hothers⟩ := ih (i + 1)
          { st with log := st.log ++ [exceededLine group table next] } st2
          hdrop2.symm hi1 hp
        refine ⟨k + 1, by omega, ?_, ?_, ?_⟩
        · rw [hlog]
          rw [List.range_succ_eq_map, List.map_cons, List.map_map,
            ← List.append_cons]
          congr 1
          congr 1
          · simp only [Nat.add_zero]
            rw [hgi, hnext]
          · congr 1
            funext j
            rw [show i + 1 + j = i + (j + 1) from by omega]
            rfl
        · rw [show i + (k + 1) = i + 1 + k from by omega]
          exact hlines
        · intro g hg
          rw [show i + (k + 1) = i + 1 + k from by omega] at hg
          exact hothers g hg
    · rw [write_group_content_ok hc] at hp
      simp only [if_true] at hp
      cases hp
      refine ⟨0, by omega, ?_, ?_, ?_⟩
      · simp
      · rw [Nat.add_zero, hgi]
        simp
      · intro g hg
        rw [Nat.add_zero, hgi] at hg
        simp [hg]

/-- C5: the catch-all group misc is the last group, a table on no pool is
assigned to it, the first placement attempt is at the preferred group (the
head of the suffix the loop starts on), and every cascade step moves the
table from position p to position p + 1 in GROUP_ORDER, so the candidate
group only ever moves forward. -/
theorem assignor_cascade_monotone :
    GROUP_ORDER.getLast? = some "misc" ∧
    (∀ t, (∀ gp ∈ GROUPS, t ∉ gp.2) → assign_group t = "misc") ∧
    (∀ t, (GROUP_ORDER.drop (GROUP_ORDER.indexOf (assign_group t))).head? =
      some (assign_group t)) ∧
    (∀ (table block : String) (i : Nat) (st st2 : AState),
      i < GROUP_ORDER.length →
      placeFrom table block (GROUP_ORDER.drop i) st = .ok st2 →
      ∃ k, i + k < GROUP_ORDER.length ∧
        st2.log = st.log ++ (List.range k).map (fun j =>
          exceededLine (GROUP_ORDER.getD (i + j) "") table
            (GROUP_ORDER.getD (i + j + 1) "")) ∧
        st2.groupLines (GROUP_ORDER.getD (i + k) "") =
          st.groupLines (GROUP_ORDER.getD (i + k) "") + lineCount block ∧
        (∀ g, g ≠ GROUP_ORDER.getD (i + k) "" →
          st2.groupLines g = st.groupLines g)) := by
  refine ⟨rfl, ?_, ?_, ?_⟩
  · intro t h
    unfold assign_group
    have hnone : GROUPS.find? (fun gp => t ∈ gp.2) = none := by
      rw [List.find?_eq_none]
      intro x hx
      simp only [decide_eq_true_eq]
      exact h x hx
    rw [hnone]
  · intro t
    exact head?_drop_indexOf GROUP_ORDER (assign_group t) (assign_group_mem t)
  · intro table block i st st2 hi hp
    exact placeFrom_ok_shape table block (GROUP_ORDER.drop i) i st st2 rfl hi hp

/-- A state whose core group is already full. -/
def stC5 : AState :=
  { initAState with groupLines := fun g => if g = "core" then 600 else 0 }

/-- Result of one concrete cascading placement from the full core group. -/
def stC5r : AState :=
  match placeFrom "users" "CREATE TABLE users (x);" (GROUP_ORDER.drop 0) stC5 with
  | .ok st => st
  | .error _ => stC5

/-- C5 witness: a concrete placement starting at core cascades forward. -/
theorem assignor_cascade_monotone_witness :
    ∃ k, 0 + k < GROUP_ORDER.length ∧
      stC5r.log = stC5.log ++ (List.range k).map (fun j =>
        exceededLine (GROUP_ORDER.getD (0 + j) "") "users"
          (GROUP_ORDER.getD (0 + j + 1) "")) ∧
      stC5r.groupLines (GROUP_ORDER.getD (0 + k) "") =
        stC5.groupLines (GROUP_ORDER.getD (0 + k) "") +
          lineCount "CREATE TABLE users (x);" ∧
      (∀ g, g ≠ GROUP_ORDER.getD (0 + k) "" →
        stC5r.groupLines g = stC5.groupLines g) :=
  assignor_cascade_monotone.2.2.2 "users" "CREATE TABLE users (x);" 0 stC5 stC5r
    (by decide) rfl

/-! ## C6: the log the script actually writes -/

/-- A structural block with a prescribed line count. -/
def bigDdl (name : String) (nls : Nat) : String :=
  "CREATE TABLE " ++ name ++ String.mk (List.replicate nls '\n') ++ ";"

/-- Two core tables whose blocks together overflow the core budget. -/
def filesC6 : List (String × String) :=
  [("roles", bigDdl "roles" 399), ("users", bigDdl "users" 299)]

/-- Resolved order of the overflow scenario. -/
def orderC6 : List String := ["roles", "users"]

/-- The log file content of a whole script invocation. -/
def scriptLogOf (r : Except String (List (String × String) × List String)) :
    List String :=
  match r with
  | .ok p => p.2
  | .error _ => []

set_option maxRecDepth 100000 in
/-- C6 (code bug): on a run with exactly one cascade event the log file
ends up with that event twice (the duplicated dunder-main block runs main
twice after a single truncation), each line in the Exceeded ... moving ...
format; no line has the documented Table ... moved from ... to ... format,
whose writer log_reassignment is never called. -/
theorem script_log_format_bug :
    scriptLogOf (runScript orderC6 filesC6) =
      ["Exceeded 600 lines in core, moving users to project",
       "Exceeded 600 lines in core, moving users to project"] ∧
    (∀ line ∈ scriptLogOf (runScript orderC6 filesC6),
      strLeads "Table " line = false) ∧
    log_reassignment "users" "core" "project" ∉
      scriptLogOf (runScript orderC6 filesC6) := by
  decide

/-! ## C8: seed isolation -/

lemma leadsWith_head {p : Char} {ps l : List Char}
    (h : leadsWith (p :: ps) l = true) : ∃ cs, l = p :: cs := by
  cases l with
  | nil => simp [leadsWith] at h
  | cons c cs =>
    simp only [leadsWith, Bool.and_eq_true, decide_eq_true_eq] at h
    exact ⟨cs, by rw [h.1]⟩

lemma insert_not_ddl {s : String} (h : is_insert s = true) : is_ddl s = false := by
  unfold is_insert strLeads at h
  unfold is_ddl strLeads
  obtain ⟨cs, hcs⟩ := @leadsWith_head 'I' "NSERT INTO".data
    (pyUpper (pyLstrip s)).data h
  rw [hcs]
  rfl

lemma ddl_not_insert {s : String} (h : is_ddl s = true) : is_insert s = false := by
  unfold is_ddl strLeads at h
  unfold is_insert strLeads
  obtain ⟨cs, hcs⟩ := @leadsWith_head 'C' "REATE TABLE".data
    (pyUpper (pyLstrip s)).data h
  rw [hcs]
  rfl

lemma splitStatementsAux_ne_empty :
    ∀ (cs buffer : List Char) (s : String),
    s ∈ splitStatementsAux cs buffer → s ≠ "" := by
  intro cs
  induction cs with
  | nil =>
    intro buffer s hs
    unfold splitStatementsAux at hs
    by_cases hb : pyStrip ⟨buffer.reverse⟩ = ""
    · rw [if_pos hb] at hs
      cases hs
    · rw [if_neg hb] at hs
      rw [List.mem_singleton.mp hs]
      exact hb
  | cons c cs ih =>
    intro buffer s hs
    unfold splitStatementsAux at hs
    by_cases hc : c = ';'
    · rw [if_pos hc] at hs
      dsimp only at hs
      by_cases hb : pyStrip ⟨(c :: buffer).reverse⟩ = ""
      · rw [if_pos hb] at hs
        exact ih [] s hs
      · rw [if_neg hb] at hs
        rcases List.mem_append.mp hs with hs | hs
        · rw [List.mem_singleton.mp hs]
          exact hb
        · exact ih [] s hs
    · rw [if_neg hc] at hs
      exact ih (c :: buffer) s hs

lemma mem_split_statements_ne_empty {text s : String}
    (h : s ∈ split_statements text) : s ≠ "" :=
  splitStatementsAux_ne_empty text.data [] s h

lemma joinSep_append (sep : String) :
    ∀ (L1 L2 : List String), L1 ≠ [] → L2 ≠ [] →
    joinSep sep (L1 ++ L2) = joinSep sep L1 ++ sep ++ joinSep sep L2 := by
  intro L1
  induction L1 with
  | nil => intro L2 h _; exact absurd rfl h
  | cons x xs ih =>
    intro L2 _ h2
    cases xs with
    | nil =>
      cases L2 with
      | nil => exact absurd rfl h2
      | cons y ys => rfl
    | cons z zs =>
      have hih := ih L2 (by simp) h2
      show x ++ sep ++ joinSep sep ((z :: zs) ++ L2) =
        (x ++ sep ++ joinSep sep (z :: zs)) ++ sep ++ joinSep sep L2
      rw [hih]
      simp [String.append_assoc]

lemma joinSep_ne_empty (sep : String) :
    ∀ (L : List String), L ≠ [] → (∀ s ∈ L, s ≠ "") → joinSep sep L ≠ "" := by
  intro L
  cases L with
  | nil => intro h _; exact absurd rfl h
  | cons x xs =>
    intro _ hall
    cases xs with
    | nil => exact hall x (by simp)
    | cons y ys =>
      intro hc
      have hx : x ≠ "" := hall x (by simp)
      have hc2 : x ++ sep ++ joinSep sep (y :: ys) = "" := hc
      have hdata : (x ++ sep ++ joinSep sep (y :: ys)).data = [] := by
        rw [hc2]
      rw [String.data_append, String.data_append] at hdata
      have hxnil : x.data = [] := by
        cases hx2 : x.data with
        | nil => rfl
        | cons c cs => rw [hx2] at hdata; simp at hdata
      exact hx (String.ext hxnil)

/-- The group bodies are always separator-joined lists of well-formed
structural statements. -/
def GroupsOK (st : AState) : Prop :=
  ∀ g, ∃ L : List String, (∀ s ∈ L, is_ddl s = true ∧ s ≠ "") ∧
    st.groupContents g = joinSep "\n\n" L ∧ (st.groupContents g = "" → L = [])

/-- Every collected seed is an INSERT statement of an allow-listed table
taken from that table's extracted file. -/
def SeedOK (files : List (String × String)) (st : AState) : Prop :=
  ∀ s ∈ st.seeds, is_insert s = true ∧ ∃ t text, t ∈ ALLOWED_SEED_TABLES ∧
    lookupFile files t = some text ∧ s ∈ split_statements text

lemma groupsOK_init : GroupsOK initAState :=
  fun _ => ⟨[], fun s hs => absurd hs (List.not_mem_nil s), rfl, fun _ => rfl⟩

lemma seedOK_init (files : List (String × String)) : SeedOK files initAState :=
  fun s hs => absurd hs (List.not_mem_nil s)

lemma write_commit_groupsOK {group : String} {st : AState} {ddls : List String}
    (hddls : ddls ≠ []) (hgood : ∀ s ∈ ddls, is_ddl s = true ∧ s ≠ "")
    (hG : GroupsOK st)
    (hc : ¬ st.groupLines group + lineCount (joinSep "\n\n" ddls) > LINE_LIMIT) :
    GroupsOK (write_group_content group (joinSep "\n\n" ddls) st).2 := by
  intro g
  rw [write_group_content_ok hc]
  dsimp only
  by_cases hg : g = group
  · rw [if_pos hg]
    subst hg
    obtain ⟨L, hL, hrepr, hempty⟩ := hG g
    by_cases hold : st.groupContents g = ""
    · rw [if_pos hold]
      refine ⟨ddls, hgood, rfl, ?_⟩
      intro hcontra
      exact absurd hcontra
        (joinSep_ne_empty "\n\n" ddls hddls (fun s hs => (hgood s hs).2))
    · rw [if_neg hold]
      have hLne : L ≠ [] := by
        intro hLnil
        rw [hLnil] at hrepr
        exact hold hrepr
      refine ⟨L ++ ddls, ?_, ?_, ?_⟩
      · intro s hs
        rcases List.mem_append.mp hs with hs | hs
        · exact hL s hs
        · exact hgood s hs
      · rw [hrepr, joinSep_append "\n\n" L ddls hLne hddls]
      · intro hcontra
        exfalso
        apply joinSep_ne_empty "\n\n" (L ++ ddls) (by simp [hddls])
          (fun s hs => by
            rcases List.mem_append.mp hs with hs | hs
            · exact (hL s hs).2
            · exact (hgood s hs).2)
        rw [joinSep_append "\n\n" L ddls hLne hddls, ← hrepr]
        exact hcontra
  · rw [if_neg hg]
    exact hG g

lemma placeFrom_groupsOK (table : String) (ddls : List String)
    (hddls : ddls ≠ []) (hgood : ∀ s ∈ ddls, is_ddl s = true ∧ s ≠ "") :
    ∀ (gs : List String) (st st2 : AState), GroupsOK st →
    placeFrom table (joinSep "\n\n" ddls) gs st = .ok st2 → GroupsOK st2 := by
  intro gs
  induction gs with
  | nil =>
    intro st st2 hG hp
    cases hp
    exact hG
  | cons group rest ih =>
    intro st st2 hG hp
    rw [placeFrom_cons] at hp
    by_cases hc : st.groupLines group + lineCount (joinSep "\n\n" ddls) > LINE_LIMIT
    · rw [write_group_content_fail hc] at hp
      simp only [Bool.false_eq_true, if_false] at hp
      cases rest with
      | nil => cases hp
      | cons next more =>
        exact ih { st with log := st.log ++ [exceededLine group table next] }
          st2 hG hp
    · rw [write_group_content_ok hc] at hp
      simp only [if_true] at hp
      cases hp
      have := write_commit_groupsOK hddls hgood hG hc
      rw [write_group_content_ok hc] at this
      exact this

lemma placeFrom_seeds (table block : String) :
    ∀ (gs : List String) (st st2 : AState),
    placeFrom table block gs st = .ok st2 → st2.seeds = st.seeds := by
  intro gs
  induction gs with
  | nil =>
    intro st st2 hp
    cases hp
    rfl
  | cons group rest ih =>
    intro st st2 hp
    rw [placeFrom_cons] at hp
    by_cases hc : st.groupLines group + lineCount block > LINE_LIMIT
    · rw [write_group_content_fail hc] at hp
      simp only [Bool.false_eq_true, if_false] at hp
      cases rest with
      | nil => cases hp
      | cons next more =>
        exact ih { st with log := st.log ++ [exceededLine group table next] } st2 hp
    · rw [write_group_content_ok hc] at hp
      simp only [if_true] at hp
      cases hp
      rfl

lemma processTable_invariants {files : List (String × String)} {st st2 : AState}
    {t : String} (hS : SeedOK files st) (hG : GroupsOK st)
    (hp : processTable files st t = .ok st2) :
    SeedOK files st2 ∧ GroupsOK st2 := by
  cases hlk : lookupFile files t with
  | none =>
    rw [processTable_none hlk] at hp
    cases hp
    exact ⟨hS, hG⟩
  | some text =>
    by_cases hdd : (split_statements text).filter is_ddl = []
    · rw [processTable_noddl hlk hdd] at hp
      cases hp
      exact ⟨hS, hG⟩
    · rw [processTable_ddl hlk hdd] at hp
      cases hpl : placeFrom t (joinSep "\n\n" ((split_statements text).filter is_ddl))
          (GROUP_ORDER.drop (GROUP_ORDER.indexOf (assign_group t))) st with
      | error e => rw [hpl] at hp; cases hp
      | ok st3 =>
        rw [hpl] at hp
        cases hp
        have hgood : ∀ s ∈ (split_statements text).filter is_ddl,
            is_ddl s = true ∧ s ≠ "" := by
          intro s hs
          have hmem := List.mem_filter.mp hs
          exact ⟨hmem.2, mem_split_statements_ne_empty hmem.1⟩
        have hG3 : GroupsOK st3 :=
          placeFrom_groupsOK t _ hdd hgood _ st st3 hG hpl
        have hseeds3 : st3.seeds = st.seeds := placeFrom_seeds t _ _ st st3 hpl
        constructor
        · intro s hs
          rw [seeds_fold] at hs
          dsimp only at hs
          by_cases ht : t ∈ ALLOWED_SEED_TABLES
          · rw [if_pos ht] at hs
            rcases List.mem_append.mp hs with hs | hs
            · rw [hseeds3] at hs
              exact hS s hs
            · have hmem := List.mem_filter.mp hs
              exact ⟨hmem.2, t, text, ht, hlk, hmem.1⟩
          · rw [if_neg ht] at hs
            rw [hseeds3] at hs
            exact hS s hs
        · exact hG3

lemma runTables_invariants {files : List (String × String)} :
    ∀ (ts : List String) (st st2 : AState),
    SeedOK files st → GroupsOK st → runTables files ts st = .ok st2 →
    SeedOK files st2 ∧ GroupsOK st2 := by
  intro ts
  induction ts with
  | nil =>
    intro st st2 hS hG hp
    cases hp
    exact ⟨hS, hG⟩
  | cons t ts ih =>
    intro st st2 hS hG hp
    rw [runTables_cons] at hp
    cases hpt : processTable files st t with
    | error e => rw [hpt] at hp; cases hp
    | ok st3 =>
      rw [hpt] at hp
      obtain ⟨hS3, hG3⟩ := processTable_invariants hS hG hpt
      exact ih st3 st2 hS3 hG3 hp

/-- C8: every seed statement is an INSERT (never a structural statement)
coming from an allow-listed table's file, every group body is a join of
structural statements (so no INSERT reaches a group file), and a table off
the allow-list contributes nothing to the seeds without raising an error. -/
theorem seed_isolation (order : List String) (files : List (String × String))
    (st : AState) (h : mainRun order files = .ok st) :
    (∀ s ∈ st.seeds, is_insert s = true ∧ is_ddl s = false ∧
      ∃ t text, t ∈ ALLOWED_SEED_TABLES ∧ lookupFile files t = some text ∧
        s ∈ split_statements text) ∧
    (∀ g, ∃ L : List String,
      (∀ s2 ∈ L, is_ddl s2 = true ∧ is_insert s2 = false) ∧
      st.groupContents g = joinSep "\n\n" L) ∧
    (∀ t, t ∉ ALLOWED_SEED_TABLES → ∀ st0 st2,
      processTable files st0 t = .ok st2 → st2.seeds = st0.seeds) := by
  obtain ⟨hS, hG⟩ := runTables_invariants order initAState st
    (seedOK_init files) groupsOK_init h
  refine ⟨?_, ?_, ?_⟩
  · intro s hs
    obtain ⟨hins, t, text, ht, hlk, hmem⟩ := hS s hs
    exact ⟨hins, insert_not_ddl hins, t, text, ht, hlk, hmem⟩
  · intro g
    obtain ⟨L, hL, hrepr, -⟩ := hG g
    exact ⟨L, fun s2 hs2 => ⟨(hL s2 hs2).1, ddl_not_insert (hL s2 hs2).1⟩, hrepr⟩
  · intro t ht st0 st2 hp
    cases hlk : lookupFile files t with
    | none =>
      rw [processTable_none hlk] at hp
      cases hp
      rfl
    | some text =>
      by_cases hdd : (split_statements text).filter is_ddl = []
      · rw [processTable_noddl hlk hdd] at hp
        cases hp
        rfl
      · rw [processTable_ddl hlk hdd] at hp
        cases hpl : placeFrom t (joinSep "\n\n" ((split_statements text).filter is_ddl))
            (GROUP_ORDER.drop (GROUP_ORDER.indexOf (assign_group t))) st0 with
        | error e => rw [hpl] at hp; cases hp
        | ok st3 =>
          rw [hpl] at hp
          cases hp
          rw [seeds_fold]
          dsimp only
          rw [if_neg ht]
          exact placeFrom_seeds t _ _ st0 st3 hpl

/-- C8 witness: the concrete run collects the roles INSERT and the theorem
classifies it. -/
theorem seed_isolation_witness :
    is_insert "INSERT INTO roles VALUES (1);" = true ∧
    is_ddl "INSERT INTO roles VALUES (1);" = false :=
  let h := (seed_isolation orderA filesA stA rfl).1
    "INSERT INTO roles VALUES (1);" (by decide)
  ⟨h.1, h.2.1⟩

/-! ## C10: tables without a structural statement -/

/-- C10 counterexample: a seed allow-list table whose file holds only an
INSERT statement and no structural statement nevertheless enters the
dependency graph, because the graph builder tests for the raw substring
CREATE TABLE, which here occurs inside the INSERT text. -/
theorem seedless_ddl_graph_counterexample :
    (split_statements "INSERT INTO settings VALUES (CREATE TABLE);").filter
      is_ddl = [] ∧
    (split_statements "INSERT INTO settings VALUES (CREATE TABLE);").filter
      is_insert ≠ [] ∧
    isGraphNode "INSERT INTO settings VALUES (CREATE TABLE);" = true ∧
    "settings" ∈ ALLOWED_SEED_TABLES := by
  decide

/-- C10 amended: a table whose file has no structural statement is skipped
before seed collection - the assignor state is left untouched, so none of
its INSERT statements reach the seed output - but it stays out of the
dependency graph only when its raw text lacks the substring CREATE TABLE,
which is what the resolver tests instead of statement structure. -/
theorem no_ddl_table_skipped_amended (t : String)
    (files : List (String × String)) (text : String)
    (hlk : lookupFile files t = some text)
    (hnd : (split_statements text).filter is_ddl = []) :
    (∀ st, processTable files st t = .ok st) ∧
    (isGraphNode text = true ↔ strHasSub text "CREATE TABLE" = true) :=
  ⟨fun _ => processTable_noddl hlk hnd, Iff.rfl⟩

/-- C10 witness: the counterexample file leaves the assignor state
untouched. -/
theorem no_ddl_table_skipped_amended_witness :
    processTable [("settings", "INSERT INTO settings VALUES (CREATE TABLE);")]
      initAState "settings" = .ok initAState :=
  (no_ddl_table_skipped_amended "settings"
    [("settings", "INSERT INTO settings VALUES (CREATE TABLE);")]
    "INSERT INTO settings VALUES (CREATE TABLE);" rfl (by decide)).1 initAState

/-! ## C9: determinism and representation independence -/

lemma char_toNat_inj {a b : Char} (h : a.toNat = b.toNat) : a = b :=
  Char.ext (UInt32.ext h)

lemma charsLe_total : ∀ as bs : List Char,
    charsLe as bs = true ∨ charsLe bs as = true := by
  intro as
  induction as with
  | nil => intro bs; left; rfl
  | cons a as ih =>
    intro bs
    cases bs with
    | nil => right; rfl
    | cons b bs =>
      by_cases h1 : a.toNat < b.toNat
      · left; simp [charsLe, h1]
      · by_cases h2 : b.toNat < a.toNat
        · right; simp [charsLe, h2]
        · rcases ih bs with h | h
          · left; simp [charsLe, h1, h2, h]
          · right; simp [charsLe, h1, h2, h]

lemma charsLe_antisymm : ∀ as bs : List Char,
    charsLe as bs = true → charsLe bs as = true → as = bs := by
  intro as
  induction as with
  | nil =>
    intro bs h1 h2
    cases bs with
    | nil => rfl
    | cons b bs => simp [charsLe] at h2
  | cons a as ih =>
    intro bs h1 h2
    cases bs with
    | nil => simp [charsLe] at h1
    | cons b bs =>
      by_cases hab : a.toNat < b.toNat
      · simp [charsLe, hab, show ¬ b.toNat < a.toNat from by omega] at h2
      · by_cases hba : b.toNat < a.toNat
        · simp [charsLe, hab, hba] at h1
        · simp only [charsLe, if_neg hab, if_neg hba] at h1
          simp only [charsLe, if_neg hba, if_neg hab] at h2
          rw [char_toNat_inj (show a.toNat = b.toNat from by omega),
            ih bs h1 h2]

lemma charsLe_trans : ∀ as bs cs : List Char, charsLe as bs = true →
    charsLe bs cs = true → charsLe as cs = true := by
  intro as
  induction as with
  | nil => intro bs cs _ _; rfl
  | cons a as ih =>
    intro bs cs h1 h2
    cases bs with
    | nil => simp [charsLe] at h1
    | cons b bs =>
      cases cs with
      | nil => simp [charsLe] at h2
      | cons c cs =>
        by_cases hab : a.toNat < b.toNat
        · by_cases hbc : b.toNat < c.toNat
          · simp [charsLe, show a.toNat < c.toNat from by omega]
          · by_cases hcb : c.toNat < b.toNat
            · simp [charsLe, hbc, hcb] at h2
            · simp [charsLe, show a.toNat < c.toNat from by omega]
        · by_cases hba : b.toNat < a.toNat
          · simp [charsLe, hab, hba] at h1
          · simp only [charsLe, if_neg hab, if_neg hba] at h1
            by_cases hbc : b.toNat < c.toNat
            · simp [charsLe, show a.toNat < c.toNat from by omega]
            · by_cases hcb : c.toNat < b.toNat
              · simp [charsLe, hbc, hcb] at h2
              · simp only [charsLe, if_neg hbc, if_neg hcb] at h2
                simp only [charsLe, if_neg (show ¬ a.toNat < c.toNat from by omega),
                  if_neg (show ¬ c.toNat < a.toNat from by omega)]
                exact ih bs cs h1 h2

lemma strLe_total (a b : String) : strLe a b = true ∨ strLe b a = true :=
  charsLe_total a.data b.data

lemma strLe_antisymm {a b : String} (h1 : strLe a b = true)
    (h2 : strLe b a = true) : a = b :=
  String.ext (charsLe_antisymm a.data b.data h1 h2)

lemma strLe_trans {a b c : String} (h1 : strLe a b = true)
    (h2 : strLe b c = true) : strLe a c = true :=
  charsLe_trans a.data b.data c.data h1 h2

instance strLe_isAntisymm : IsAntisymm String (fun a b => strLe a b = true) :=
  ⟨fun _ _ h1 h2 => strLe_antisymm h1 h2⟩

lemma mem_insertSorted {x y : String} {l : List String} :
    y ∈ insertSorted x l ↔ y = x ∨ y ∈ l :=
  (insertSorted_perm x l).mem_iff.trans List.mem_cons

lemma insertSorted_sorted {x : String} : ∀ {l : List String},
    l.Pairwise (fun a b => strLe a b = true) →
    (insertSorted x l).Pairwise (fun a b => strLe a b = true) := by
  intro l
  induction l with
  | nil => intro _; simp [insertSorted]
  | cons y ys ih =>
    intro h
    unfold insertSorted
    by_cases hxy : strLe x y = true
    · rw [if_pos hxy]
      refine List.Pairwise.cons ?_ h
      intro z hz
      rcases List.mem_cons.mp hz with rfl | hz
      · exact hxy
      · exact strLe_trans hxy ((List.pairwise_cons.mp h).1 z hz)
    · rw [if_neg hxy]
      obtain ⟨hy, hys⟩ := List.pairwise_cons.mp h
      refine List.Pairwise.cons ?_ (ih hys)
      intro z hz
      rcases mem_insertSorted.mp hz with rfl | hz
      · rcases strLe_total y z with h2 | h2
        · exact h2
        · exact absurd h2 hxy
      · exact hy z hz

lemma sortStrings_sorted : ∀ l : List String,
    (sortStrings l).Pairwise (fun a b => strLe a b = true) := by
  intro l
  induction l with
  | nil => exact List.Pairwise.nil
  | cons x xs ih => exact insertSorted_sorted ih

lemma sortStrings_eq_of_perm {l1 l2 : List String}
    (h : List.Perm l1 l2) : sortStrings l1 = sortStrings l2 :=
  List.eq_of_perm_of_sorted
    ((sortStrings_perm l1).trans (h.trans (sortStrings_perm l2).symm))
    (sortStrings_sorted l1) (sortStrings_sorted l2)

lemma find?_eq_of_nodup : ∀ (g : List (String × List String))
    (p : String × List String), (g.map Prod.fst).Nodup → p ∈ g →
    g.find? (fun q => q.1 = p.1) = some p := by
  intro g
  induction g with
  | nil => intro p _ hp; cases hp
  | cons q g ih =>
    intro p hn hp
    have hn2 := List.nodup_cons.mp hn
    rcases List.mem_cons.mp hp with rfl | hp
    · exact List.find?_cons_of_pos _ (by simp)
    · have hne : (decide (q.1 = p.1)) = false := by
        simp only [decide_eq_false_iff_not]
        intro he
        exact hn2.1 (he ▸ List.mem_map_of_mem Prod.fst hp)
      rw [List.find?_cons_of_neg _ (by simp at hne ⊢; exact hne)]
      exact ih p hn2.2 hp

lemma depsOf_key {g : List (String × List String)} {p : String × List String}
    (hn : (g.map Prod.fst).Nodup) (hp : p ∈ g) : depsOf g p.1 = p.2 := by
  unfold depsOf
  rw [find?_eq_of_nodup g p hn hp]

lemma mem_graphNames {g : List (String × List String)}
    (hn : (g.map Prod.fst).Nodup) (x : String) :
    x ∈ graphNames g ↔
    x ∈ g.map Prod.fst ∨ ∃ n ∈ g.map Prod.fst, x ∈ depsOf g n := by
  unfold graphNames
  rw [List.mem_dedup, List.mem_append]
  constructor
  · rintro (h | h)
    · exact Or.inl h
    · rw [List.mem_flatten] at h
      obtain ⟨l, hl, hx⟩ := h
      rw [List.mem_map] at hl
      obtain ⟨p, hp, rfl⟩ := hl
      exact Or.inr ⟨p.1, List.mem_map_of_mem Prod.fst hp, by
        rw [depsOf_key hn hp]; exact hx⟩
  · rintro (h | ⟨n, hnmem, hx⟩)
    · exact Or.inl h
    · right
      rw [List.mem_map] at hnmem
      obtain ⟨p, hp, rfl⟩ := hnmem
      rw [depsOf_key hn hp] at hx
      rw [List.mem_flatten]
      exact ⟨p.2, List.mem_map_of_mem Prod.snd hp, hx⟩

lemma visit_congr {g1 g2 : List (String × List String)}
    (hdeps : ∀ n, sortedDeps g1 n = sortedDeps g2 n) :
    ∀ (fuel : Nat) (node : String) (stack : List String) (s : RState),
    visit g1 fuel node stack s = visit g2 fuel node stack s := by
  intro fuel
  induction fuel with
  | zero => intro node stack s; rfl
  | succ f ih =>
    intro node stack s
    by_cases h1 : node ∈ s.visited
    · rw [visit_visited h1, visit_visited h1]
    by_cases h2 : node ∈ s.temp
    · rw [visit_cycle h1 h2, visit_cycle h1 h2]
    rw [visit_else h1 h2, visit_else h1 h2]
    have hfold : ∀ (ds : List String) (st : RState),
        visitFold g1 f stack ds st = visitFold g2 f stack ds st := by
      intro ds
      induction ds with
      | nil => intro st; rfl
      | cons d ds ihds =>
        intro st
        rw [visitFold_cons, visitFold_cons, ih, ihds]
    rw [hdeps node, hfold]

lemma resolveLoop_congr {g1 g2 : List (String × List String)}
    (hdeps : ∀ n, sortedDeps g1 n = sortedDeps g2 n) :
    ∀ (fuel : Nat) (ts : List String) (s : RState),
    resolveLoop g1 fuel ts s = resolveLoop g2 fuel ts s := by
  intro fuel ts
  induction ts with
  | nil => intro s; rfl
  | cons t ts ih =>
    intro s
    rw [resolveLoop_cons, resolveLoop_cons, visit_congr hdeps, ih]

/-- C9: the pipeline output is a function of the graph as a mathematical
object: any two association list representations with the same key set and
the same per-table dependency sets resolve to the same state, and feed the
splitter identically - so byte-identical outputs for identical input. -/
theorem pipeline_deterministic (g1 g2 : List (String × List String))
    (files : List (String × String))
    (hn1 : (g1.map Prod.fst).Nodup) (hn2 : (g2.map Prod.fst).Nodup)
    (hk : List.Perm (g1.map Prod.fst) (g2.map Prod.fst))
    (hd : ∀ n x, x ∈ depsOf g1 n ↔ x ∈ depsOf g2 n) :
    resolve g1 = resolve g2 ∧
    runScript (resolve g1).resolved files =
      runScript (resolve g2).resolved files := by
  have hdeps : ∀ n, sortedDeps g1 n = sortedDeps g2 n := by
    intro n
    unfold sortedDeps
    apply sortStrings_eq_of_perm
    apply (List.perm_ext_iff_of_nodup (List.nodup_dedup _) (List.nodup_dedup _)).mpr
    intro x
    rw [List.mem_dedup, List.mem_dedup]
    exact hd n x
  have hkeys : sortedKeys g1 = sortedKeys g2 := by
    unfold sortedKeys
    exact sortStrings_eq_of_perm hk
  have hnames : (graphNames g1).length = (graphNames g2).length := by
    apply List.Perm.length_eq
    apply (List.perm_ext_iff_of_nodup (List.nodup_dedup _) (List.nodup_dedup _)).mpr
    intro x
    show x ∈ graphNames g1 ↔ x ∈ graphNames g2
    rw [mem_graphNames hn1, mem_graphNames hn2]
    constructor
    · rintro (h | ⟨n, hnm, hx⟩)
      · exact Or.inl (hk.mem_iff.mp h)
      · exact Or.inr ⟨n, hk.mem_iff.mp hnm, (hd n x).mp hx⟩
    · rintro (h | ⟨n, hnm, hx⟩)
      · exact Or.inl (hk.mem_iff.mpr h)
      · exact Or.inr ⟨n, hk.mem_iff.mpr hnm, (hd n x).mpr hx⟩
  have hres : resolve g1 = resolve g2 := by
    unfold resolve resolveFuel
    rw [hkeys, hnames, resolveLoop_congr hdeps]
  exact ⟨hres, by rw [hres]⟩

/-- C9 witness: two orderings of the same graph, one of them listing a
reference twice, resolve identically. -/
theorem pipeline_deterministic_witness :
    resolve [("a", ["b"]), ("b", [])] = resolve [("b", []), ("a", ["b", "b"])] :=
  (pipeline_deterministic [("a", ["b"]), ("b", [])]
    [("b", []), ("a", ["b", "b"])] []
    (by decide) (by decide) (by decide)
    (by
      intro n x
      by_cases ha : n = "a"
      · subst ha
        show x ∈ ["b"] ↔ x ∈ ["b", "b"]
        simp
      · by_cases hb : n = "b"
        · subst hb
          show x ∈ ([] : List String) ↔ x ∈ ([] : List String)
          exact Iff.rfl
        · have e1 : depsOf [("a", ["b"]), ("b", [])] n = [] := by
            unfold depsOf
            have hnone : List.find? (fun p => p.1 = n)
                [("a", ["b"]), ("b", [])] = none := by
              rw [List.find?_eq_none]
              intro p hp
              simp only [List.mem_cons, List.mem_singleton] at hp
              rcases hp with rfl | rfl | hp
              · simp only [decide_eq_true_eq]
                intro he
                exact ha he.symm
              · simp only [decide_eq_true_eq]
                intro he
                exact hb he.symm
              · cases hp
            rw [hnone]
          have e2 : depsOf [("b", []), ("a", ["b", "b"])] n = [] := by
            unfold depsOf
            have hnone : List.find? (fun p => p.1 = n)
                [("b", []), ("a", ["b", "b"])] = none := by
              rw [List.find?_eq_none]
              intro p hp
              simp only [List.mem_cons, List.mem_singleton] at hp
              rcases hp with rfl | rfl | hp
              · simp only [decide_eq_true_eq]
                intro he
                exact hb he.symm
              · simp only [decide_eq_true_eq]
                intro he
                exact ha he.symm
              · cases hp
            rw [hnone]
          rw [e1, e2])).1
